import Mathlib

/-!
Verification of the zeroimage content-addressable image engine.

Go strings are modeled as lists of characters (`Str`), byte streams as lists
of naturals, and the Go standard library path functions (`path.Clean`,
`path.Base`, `path.Dir`, `strings.Split`, `strings.Join`) are embedded as
executable functions on `Str`.  The repository's own code
(`internal/tarbuild`, `internal/tarlayer`, `internal/ocibuild`,
`internal/ociarchive`, `internal/image`) is embedded function by function
below, each definition carrying a reference to the Go source it mirrors.
-/

namespace Zeroimage

/-- Go strings are modeled as lists of characters. -/
abbrev Str := List Char

/-- Model of Go `strings.Split(s, "/")` (`List.splitOn` keeps empty fields,
exactly like `strings.Split`; in particular splitting the empty string yields
a single empty field). -/
def splitSlash (s : Str) : List Str := s.splitOn '/'

/-- Model of Go `strings.Join(parts, "/")`. -/
def joinSlash (parts : List Str) : Str := List.intercalate ['/'] parts

/-- A "plain" path segment: a nonempty file or directory name that is not one
of the special path elements "." and ".." and contains no separator. -/
def plainSeg (s : Str) : Prop := s ≠ [] ∧ '/' ∉ s ∧ s ≠ ['.'] ∧ s ≠ ['.', '.']

instance (s : Str) : Decidable (plainSeg s) := by
  unfold plainSeg; infer_instance

/-- Whether a Go path is rooted (begins with a slash), as in `path.Clean`. -/
def isRooted (p : Str) : Bool := p.head? == some '/'

/-- One step of the element-wise processing performed by Go `path.Clean`,
following the four rules in its documentation: drop "." elements, let a ".."
element erase the preceding non-".." element, and drop a ".." that would walk
above the root of a rooted path (an unmatched ".." is kept for relative
paths). -/
def cleanStep (rooted : Bool) (stack : List Str) (seg : Str) : List Str :=
  if seg = ['.'] then stack
  else if seg = ['.', '.'] then
    if stack ≠ [] ∧ stack.getLast? ≠ some ['.', '.'] then stack.dropLast
    else if rooted then stack else stack ++ [seg]
  else stack ++ [seg]

/-- The list of path elements of the Go `path.Clean` of a path, obtained by
splitting on "/" (dropping the empty elements produced by repeated slashes)
and applying `cleanStep` to each element in order. -/
def cleanSegs (rooted : Bool) (p : Str) : List Str :=
  ((splitSlash p).filter (fun s => !s.isEmpty)).foldl (cleanStep rooted) []

/-- Model of Go `path.Clean`: the cleaned elements joined by "/", with the
leading "/" restored for rooted paths and the empty result replaced by ".". -/
def pathClean (p : Str) : Str :=
  if isRooted p then '/' :: joinSlash (cleanSegs true p)
  else
    match cleanSegs false p with
    | [] => ['.']
    | segs => joinSlash segs

/-- Model of Go `path.Base`: everything after the final slash, with trailing
slashes removed first; "." for the empty path and "/" for all-slash paths. -/
def pathBase (p : Str) : Str :=
  if p = [] then ['.']
  else
    let q := (p.reverse.dropWhile (fun c => c == '/')).reverse
    if q = [] then ['/']
    else (q.reverse.takeWhile (fun c => c != '/')).reverse

/-- Model of Go `path.Dir`: `path.Clean` of everything up to and including the
final slash (the empty string, hence ".", when there is no slash). -/
def pathDir (p : Str) : Str :=
  pathClean ((p.reverse.dropWhile (fun c => c != '/')).reverse)

/-- A normalized tar path (the `npath` type of `internal/tarbuild`,
src/internal/tarbuild/tarbuild.go lines 26-40 and src/unnamed/part_004 lines
128-141), represented by its list of path elements.  `normalizePath` applies
`path.Clean`, strips the leading "/" of absolute paths, and maps the empty
result to the archive root; the root "." is represented here by the empty
element list, and a nonempty element list `segs` stands for the string
`joinSlash segs`. -/
def normalizePath (p : Str) : List Str := cleanSegs (isRooted p) p

/-- Rendering an `npath` back to the string form used in tar headers. -/
def renderNPath (np : List Str) : Str :=
  if np = [] then ['.'] else joinSlash np

-- Sanity checks against the path normalization cases of
-- src/internal/tarbuild/tarbuild_test.go ("path normalization" test case).
example : normalizePath "etc/test1.conf".data = ["etc".data, "test1.conf".data] := by decide
example : normalizePath "/etc/test2.conf".data = ["etc".data, "test2.conf".data] := by decide
example : normalizePath "../../../etc/./test3.conf".data =
    ["..".data, "..".data, "..".data, "etc".data, "test3.conf".data] := by decide
example : normalizePath "./home/../etc/test4/.././test4.conf".data =
    ["etc".data, "test4.conf".data] := by decide
example : normalizePath "/home/./".data = ["home".data] := by decide
example : normalizePath "/".data = [] := by decide
example : normalizePath "".data = [] := by decide
example : normalizePath "../".data = ["..".data] := by decide
example : pathClean "/..".data = "/".data := by decide
example : pathClean "a//b/./../c".data = "a/c".data := by decide
example : pathBase "blobs/sha256/abc".data = "abc".data := by decide
example : pathDir "blobs/sha256/abc".data = "blobs/sha256".data := by decide
example : pathDir "abc".data = ".".data := by decide

/-! ### Lemmas about splitting, joining and cleaning -/

theorem splitSlash_joinSlash (parts : List Str) (hne : parts ≠ [])
    (hs : ∀ s ∈ parts, '/' ∉ s) : splitSlash (joinSlash parts) = parts :=
  List.splitOn_intercalate parts '/' hs hne

theorem cleanStep_plain (rooted : Bool) (stack : List Str) (seg : Str)
    (h : seg ≠ ['.'] ∧ seg ≠ ['.', '.']) :
    cleanStep rooted stack seg = stack ++ [seg] := by
  unfold cleanStep
  rw [if_neg h.1, if_neg h.2]

/-- Folding `cleanStep` over plain segments just appends them. -/
theorem foldl_cleanStep_plain (rooted : Bool) (segs : List Str)
    (h : ∀ s ∈ segs, s ≠ ['.'] ∧ s ≠ ['.', '.']) (stack : List Str) :
    segs.foldl (cleanStep rooted) stack = stack ++ segs := by
  induction segs generalizing stack with
  | nil => simp
  | cons s rest ih =>
    rw [List.foldl_cons, cleanStep_plain rooted stack s (h s (by simp)),
      ih (fun t ht => h t (by simp [ht]))]
    simp

/-- `normalizePath` is the identity on rendered plain npaths. -/
theorem normalizePath_joinSlash (segs : List Str) (hne : segs ≠ [])
    (h : ∀ s ∈ segs, plainSeg s) : normalizePath (joinSlash segs) = segs := by
  have hroot : isRooted (joinSlash segs) = false := by
    cases segs with
    | nil => exact absurd rfl hne
    | cons a rest =>
      obtain ⟨ha, hslash, -, -⟩ := h a (by simp)
      cases a with
      | nil => exact absurd rfl ha
      | cons c cs =>
        have hc : c ≠ '/' := fun hc => hslash (by simp [hc])
        simp [isRooted, joinSlash, List.intercalate, List.intersperse]
        cases rest <;> simp [List.intersperse, hc]
  unfold normalizePath cleanSegs
  rw [hroot, splitSlash_joinSlash segs hne (fun s hs => (h s hs).2.1)]
  have hfil : segs.filter (fun s => !s.isEmpty) = segs := by
    apply List.filter_eq_self.mpr
    intro s hs
    have := (h s hs).1
    simp [List.isEmpty_iff, this]
  rw [hfil, foldl_cleanStep_plain _ _ (fun s hs => ⟨(h s hs).2.2.1, (h s hs).2.2.2⟩)]
  simp

/-! ### Hex encodings and digest model

Byte streams are lists of naturals.  The SHA-256 and SHA-512 compression
functions themselves are outside the repository; they are modeled by
deterministic, lossy folds producing values of the right width.  Nothing in
the development uses any property of these folds beyond determinism: every
claim relates outputs of the digest function to other outputs of the same
function. -/

/-- The lowercase hexadecimal alphabet, as produced by Go
`encoding/hex.EncodeToString` and required by `go-digest` validation. -/
def hexChars : Str := "0123456789abcdef".data

/-- The lowercase hexadecimal digit of a value, taken modulo 16. -/
def hexDigit (n : Nat) : Char := hexChars.getD (n % 16) '0'

/-- Lowercase hexadecimal rendering of a natural number, most significant
digit first, zero-padded (and truncated) to exactly `w` digits. -/
def toHexPad : Nat → Nat → Str
  | 0, _ => []
  | w + 1, n => toHexPad w (n / 16) ++ [hexDigit n]

/-- Model of the SHA-256 digest value of a byte stream: a deterministic
256-bit fold standing in for the real compression function. -/
def sha256Fold (bs : List Nat) : Nat :=
  bs.foldl (fun h b => (h * 16777619 + b % 256 + 1) % 2 ^ 256) 99

/-- Model of SHA-256 in its lowercase-hex encoded form (64 hex digits). -/
def sha256Hex (bs : List Nat) : Str := toHexPad 64 (sha256Fold bs)

/-- Model of the SHA-512 digest value of a byte stream (512-bit fold). -/
def sha512Fold (bs : List Nat) : Nat :=
  bs.foldl (fun h b => (h * 1099511628211 + b % 256 + 1) % 2 ^ 512) 512

/-- Model of SHA-512 in its lowercase-hex encoded form (128 hex digits). -/
def sha512Hex (bs : List Nat) : Str := toHexPad 128 (sha512Fold bs)

/-- A `go-digest` digest, the pair of an algorithm name and the lowercase-hex
encoded hash value (`go-digest` renders this pair as "alg:encoded"; the empty
digest string is the pair of empty components). -/
structure Digest where
  algorithm : Str
  encoded : Str
deriving DecidableEq

/-- The empty digest (the zero value `""` of the Go string type
`digest.Digest`). -/
def Digest.emptyD : Digest where
  algorithm := []
  encoded := []

/-- Model of `digest.FromBytes`, which always uses the canonical SHA-256
algorithm. -/
def digestFromBytes (bs : List Nat) : Digest where
  algorithm := "sha256".data
  encoded := sha256Hex bs

/-- The encoded hash of a byte stream under a named algorithm, or `none` for
an unregistered algorithm.  This models the `go-digest` verifier. -/
def algHex (alg : Str) (bs : List Nat) : Option Str :=
  if alg = "sha256".data then some (sha256Hex bs)
  else if alg = "sha512".data then some (sha512Hex bs)
  else none

/-- Model of `digest.Digest.Validate`: the algorithm must be registered and
the encoded part must be lowercase hex of the algorithm's width. -/
def digestValid (d : Digest) : Prop :=
  (d.algorithm = "sha256".data ∧ d.encoded.length = 64 ∧ ∀ c ∈ d.encoded, c ∈ hexChars) ∨
  (d.algorithm = "sha512".data ∧ d.encoded.length = 128 ∧ ∀ c ∈ d.encoded, c ∈ hexChars)

instance (d : Digest) : Decidable (digestValid d) := by
  unfold digestValid; infer_instance

theorem toHexPad_length (w n : Nat) : (toHexPad w n).length = w := by
  induction w generalizing n with
  | zero => rfl
  | succ w ih => simp [toHexPad, ih]

theorem toHexPad_mem_hexChars (w n : Nat) : ∀ c ∈ toHexPad w n, c ∈ hexChars := by
  induction w generalizing n with
  | zero => intro c hc; simp [toHexPad] at hc
  | succ w ih =>
    intro c hc
    simp only [toHexPad, List.mem_append, List.mem_singleton] at hc
    rcases hc with hc | hc
    · exact ih _ c hc
    · subst hc
      have hlt : n % 16 < hexChars.length := by
        simp [hexChars]
        omega
      rw [hexDigit, List.getD_eq_getElem _ _ hlt]
      exact List.getElem_mem hlt

theorem sha256Hex_length (bs : List Nat) : (sha256Hex bs).length = 64 :=
  toHexPad_length 64 _

theorem sha256Hex_mem (bs : List Nat) : ∀ c ∈ sha256Hex bs, c ∈ hexChars :=
  toHexPad_mem_hexChars 64 _

/-- A hex-encoded digest is a plain path segment (in particular it contains
no slash and is not "." or ".."). -/
theorem plainSeg_of_hex (s : Str) (hlen : 3 < s.length)
    (hmem : ∀ c ∈ s, c ∈ hexChars) : plainSeg s := by
  refine ⟨?_, ?_, ?_, ?_⟩
  · intro h; rw [h] at hlen; simp at hlen
  · intro h
    have := hmem '/' h
    simp [hexChars] at this
  · intro h; rw [h] at hlen; simp at hlen
  · intro h; rw [h] at hlen; simp at hlen

theorem plainSeg_sha256Hex (bs : List Nat) : plainSeg (sha256Hex bs) :=
  plainSeg_of_hex _ (by rw [sha256Hex_length]; norm_num) (sha256Hex_mem bs)

theorem digestValid_fromBytes (bs : List Nat) : digestValid (digestFromBytes bs) :=
  Or.inl ⟨rfl, sha256Hex_length bs, sha256Hex_mem bs⟩

/-! ### Platform parsing and formatting

Embedding of `internal/image/platform.go` (`ParsePlatform` lines 12-34,
`FormatPlatform` lines 38-43).  `specsv1.Platform` is embedded with absent
optional fields represented by empty strings and lists. -/

/-- The OCI `specsv1.Platform` structure. -/
structure Platform where
  os : Str
  architecture : Str
  osVersion : Str := []
  osFeatures : List Str := []
  variant : Str := []
deriving DecidableEq

/-- Embedding of `ParsePlatform` (src/internal/image/platform.go lines
12-34): split on "/", require 2 or 3 parts, reject empty OS, architecture or
variant.  The distinct Go error values are collapsed to `none`. -/
def ParsePlatform (ps : Str) : Option Platform :=
  match splitSlash ps with
  | [os, arch] =>
    if os = [] then none
    else if arch = [] then none
    else some { os := os, architecture := arch }
  | [os, arch, v] =>
    if os = [] then none
    else if arch = [] then none
    else if v = [] then none
    else some { os := os, architecture := arch, variant := v }
  | _ => none

/-- Embedding of `FormatPlatform` (src/internal/image/platform.go lines
38-43). -/
def FormatPlatform (p : Platform) : Str :=
  if p.variant ≠ [] then joinSlash [p.os, p.architecture, p.variant]
  else joinSlash [p.os, p.architecture]

/-- C9 counterexample: the platform with OS "a/b" and architecture "c" has
non-empty OS and architecture, no OS version and no OS features, yet
`ParsePlatform (FormatPlatform P)` succeeds with the different platform
{os := "a", architecture := "b", variant := "c"}, so the round-trip claim
fails as stated. -/
theorem C9_cx :
    (Platform.mk "a/b".data "c".data [] [] []).os ≠ [] ∧
    (Platform.mk "a/b".data "c".data [] [] []).architecture ≠ [] ∧
    (Platform.mk "a/b".data "c".data [] [] []).osVersion = [] ∧
    (Platform.mk "a/b".data "c".data [] [] []).osFeatures = [] ∧
    ParsePlatform (FormatPlatform (Platform.mk "a/b".data "c".data [] [] [])) ≠
      some (Platform.mk "a/b".data "c".data [] [] []) := by
  decide

/-- C9 (amended): for every platform with non-empty OS and architecture, no
OS version, no OS features, and no "/" inside the OS, architecture or variant
fields, `ParsePlatform (FormatPlatform P)` succeeds and returns P. -/
theorem C9_parse_format_roundtrip (p : Platform)
    (hos : p.os ≠ []) (harch : p.architecture ≠ [])
    (hosS : '/' ∉ p.os) (harchS : '/' ∉ p.architecture) (hvarS : '/' ∉ p.variant)
    (hver : p.osVersion = []) (hfeat : p.osFeatures = []) :
    ParsePlatform (FormatPlatform p) = some p := by
  obtain ⟨os, arch, ver, feats, v⟩ := p
  simp only at hos harch hosS harchS hvarS hver hfeat
  subst hver hfeat
  by_cases hv : v = []
  · subst hv
    have hsplit : splitSlash (joinSlash [os, arch]) = [os, arch] := by
      refine splitSlash_joinSlash _ (by simp) ?_
      intro s hs
      simp only [List.mem_cons, List.mem_singleton] at hs
      rcases hs with rfl | hs
      · exact hosS
      · simp at hs; subst hs; exact harchS
    unfold FormatPlatform
    simp only [ne_eq, not_true_eq_false, if_neg, if_false]
    unfold ParsePlatform
    rw [hsplit]
    simp [hos, harch]
  · have hsplit : splitSlash (joinSlash [os, arch, v]) = [os, arch, v] := by
      refine splitSlash_joinSlash _ (by simp) ?_
      intro s hs
      simp only [List.mem_cons, List.mem_singleton] at hs
      rcases hs with rfl | rfl | hs
      · exact hosS
      · exact harchS
      · simp at hs; subst hs; exact hvarS
    unfold FormatPlatform
    simp only [ne_eq, hv, not_false_eq_true, if_true]
    unfold ParsePlatform
    rw [hsplit]
    simp [hos, harch, hv]

/-- Witness for C9: the round-trip theorem applied to linux/arm64. -/
theorem C9_parse_format_roundtrip_witness :
    ParsePlatform (FormatPlatform (Platform.mk "linux".data "arm64".data [] [] [])) =
      some (Platform.mk "linux".data "arm64".data [] [] []) :=
  C9_parse_format_roundtrip _ (by decide) (by decide) (by decide) (by decide)
    (by decide) (by decide) (by decide)

/-! ### OCI wire types

Embeddings of the `specs-go` types used by the repository
(`specsv1.Descriptor`, `specsv1.Manifest`, `specsv1.Index`,
`specsv1.ImageLayout`, `specsv1.History`) and of `image.Config`
(src/internal/image/image.go lines 61-69: `specsv1.Image` extended with
flattened os.version / os.features / variant fields).  Optional JSON fields
are empty strings/lists or `Option`; `RootFS.DiffIDs` is flattened into the
config structure. -/

/-- OCI content descriptor.  `Size` is `int64` in Go; every size produced by
the repository is a byte count, embedded as `Nat`. -/
structure Descriptor where
  mediaType : Str
  digest : Digest
  size : Nat
  platform : Option Platform := none
deriving DecidableEq

/-- One OCI image-config history record. -/
structure HistoryEntry where
  created : Option Nat := none
  createdBy : Str := []
deriving DecidableEq

/-- The OCI image configuration (`image.Config`), with
`RootFS.DiffIDs` flattened to `diffIDs`. -/
structure ImageConfig where
  os : Str := []
  architecture : Str := []
  diffIDs : List Digest := []
  history : List HistoryEntry := []
  osVersion : Str := []
  osFeatures : List Str := []
  variant : Str := []
deriving DecidableEq

/-- OCI image manifest. -/
structure Manifest where
  schemaVersion : Nat := 2
  config : Descriptor
  layers : List Descriptor := []
  annotations : List (Str × Str) := []
deriving DecidableEq

/-- OCI image index. -/
structure OCIIndex where
  schemaVersion : Nat := 2
  manifests : List Descriptor := []
deriving DecidableEq

/-- The `oci-layout` file contents (`specsv1.ImageLayout`). -/
structure Layout where
  version : Str
deriving DecidableEq

/-- Media-type constants of the OCI image spec and Docker. -/
def mtImageManifest : Str := "application/vnd.oci.image.manifest.v1+json".data

def mtImageConfig : Str := "application/vnd.oci.image.config.v1+json".data

def mtImageIndex : Str := "application/vnd.oci.image.index.v1+json".data

def mtImageLayerGzip : Str := "application/vnd.oci.image.layer.v1.tar+gzip".data

def mtDockerManifest : Str := "application/vnd.docker.distribution.manifest.v2+json".data

def mtDockerManifestList : Str :=
  "application/vnd.docker.distribution.manifest.list.v2+json".data

def ociLayoutFileName : Str := "oci-layout".data

def ociLayoutVersion : Str := "1.0.0".data

/-- The content of one file stored in a tar archive: either raw bytes or the
`json.Marshal` encoding of one of the OCI documents.  Decoding a document
(`json.Unmarshal` into the corresponding Go type) is constructor matching;
the byte-level view is given by `encodeFD`. -/
inductive FileData
  | raw (bs : List Nat)
  | configDoc (c : ImageConfig)
  | manifestDoc (m : Manifest)
  | indexDoc (i : OCIIndex)
  | layoutDoc (l : Layout)
deriving DecidableEq

/-- Length-prefixed byte encoding of a string (models its JSON rendering). -/
def encStr (s : Str) : List Nat := s.length :: s.map Char.toNat

/-- Byte encoding of a list of encodable values. -/
def encList (f : α → List Nat) (xs : List α) : List Nat := xs.length :: xs.flatMap f

def encDigest (d : Digest) : List Nat := encStr d.algorithm ++ encStr d.encoded

def encPlatform (p : Platform) : List Nat :=
  encStr p.os ++ encStr p.architecture ++ encStr p.osVersion ++
    encList encStr p.osFeatures ++ encStr p.variant

def encDescriptor (d : Descriptor) : List Nat :=
  encStr d.mediaType ++ encDigest d.digest ++ [d.size] ++
    (match d.platform with
     | none => [0]
     | some p => 1 :: encPlatform p)

def encHistoryEntry (h : HistoryEntry) : List Nat :=
  (match h.created with
   | none => [0]
   | some t => [1, t]) ++ encStr h.createdBy

def encConfig (c : ImageConfig) : List Nat :=
  encStr c.os ++ encStr c.architecture ++ encList encDigest c.diffIDs ++
    encList encHistoryEntry c.history ++ encStr c.osVersion ++
    encList encStr c.osFeatures ++ encStr c.variant

def encManifest (m : Manifest) : List Nat :=
  m.schemaVersion :: encDescriptor m.config ++ encList encDescriptor m.layers ++
    encList (fun kv => encStr kv.1 ++ encStr kv.2) m.annotations

def encIndexDoc (i : OCIIndex) : List Nat :=
  i.schemaVersion :: encList encDescriptor i.manifests

/-- The byte stream of a stored file: raw data are their own bytes and each
document is a tagged deterministic flattening, standing in for the exact
`json.Marshal` output. -/
def encodeFD : FileData → List Nat
  | .raw bs => bs
  | .configDoc c => 0 :: encConfig c
  | .manifestDoc m => 1 :: encManifest m
  | .indexDoc i => 2 :: encIndexDoc i
  | .layoutDoc l => 3 :: encStr l.version

/-! ### The tar builder

Embedding of `internal/tarbuild` in the revision cited by the claims
(src/unnamed/part_004: `Builder`, `Add`, `AddContent`,
`ensureParentDirectory`, `Close`; `File`/`Dir` values are `TFile`).  The
builder's sink (`tar.Writer`) is modeled by the list of entries written so
far plus a footer flag; normalized paths are element lists (`normalizePath`
above).  `DefaultModTime` is fixed at construction (the modeled operation
sequences never reassign the field). -/

/-- The causes wrapped in a tarbuild `AddError`. -/
inductive AddCause
  | duplicateEntry
  | entryOutsideOfArchive
  | sizeMismatch
deriving DecidableEq

/-- Errors surfaced by the tar builder.  `addError` models
`tarbuild.AddError` (a path plus a cause); `builderClosed` models
`ErrBuilderClosed`. -/
inductive TarError
  | builderClosed
  | addError (path : List Str) (cause : AddCause)
deriving DecidableEq

/-- Tar entry types (`tar.TypeReg` / `tar.TypeDir`). -/
inductive EntryType
  | reg
  | dir
deriving DecidableEq

/-- One entry of the produced tar stream: the written header fields plus the
file content.  The header name is kept in structured form as the list of its
slash-separated elements (`segs`); the flat string written to the header is
`Entry.name` below.  An arbitrary tar name `s` is represented by the
singleton `[s]`. -/
structure Entry where
  segs : List Str
  etype : EntryType
  mode : Nat
  uid : Nat := 0
  gid : Nat := 0
  modTime : Nat
  size : Nat := 0
  content : FileData := .raw []
deriving DecidableEq

/-- The header name of an entry: the slash-joined elements, suffixed with "/"
for a directory entry (both `Add` and `ensureParentDirectory` write directory
names with the trailing slash). -/
def Entry.name (e : Entry) : Str :=
  match e.etype with
  | .reg => joinSlash e.segs
  | .dir => joinSlash e.segs ++ ['/']

/-- An `fs.File` handed to `Add`: `tarbuild.File` (`isDir = false`) or
`tarbuild.Dir` (`isDir = true`), carrying the explicit Stat values. -/
structure TFile where
  isDir : Bool := false
  content : FileData := .raw []
  size : Nat := 0
  mode : Nat
  modTime : Nat
deriving DecidableEq

/-- The tar builder state (src/unnamed/part_004 lines 117-123). -/
structure Builder where
  defaultModTime : Nat
  output : List Entry := []
  entries : List (List Str × EntryType) := []
  footerWritten : Bool := false
  err : Option TarError := none
deriving DecidableEq

/-- Lookup in the builder's `entries` map (Go map access). -/
def findType : List (List Str × EntryType) → List Str → Option EntryType
  | [], _ => none
  | (p, t) :: rest, np => if p = np then some t else findType rest np

/-- Model of `tarbuild.NewBuilder` with the given `DefaultModTime`. -/
def newBuilder (modTime : Nat) : Builder where
  defaultModTime := modTime

/-- The directory entry synthesized by `ensureParentDirectory` (mode 0755,
uid/gid 0, the builder's `DefaultModTime`, name suffixed by "/"). -/
def dirEntry (parent : List Str) (modTime : Nat) : Entry where
  segs := parent
  etype := .dir
  mode := 0o755
  modTime := modTime

/-- The modelled-from-spec rejection predicate of the tar builder: the path
normalizes to the archive root, or its cleaned form escapes the archive root
(leads with a ".." element). -/
def outsideArchive (np : List Str) : Prop := np = [] ∨ np.head? = some ['.', '.']

instance (np : List Str) : Decidable (outsideArchive np) := by
  unfold outsideArchive; infer_instance

/-- Embedding of `Builder.ensureParentDirectory` (src/unnamed/part_004 lines
236-272): recursively ensure the parent chain of the entry, writing a
`dirEntry` for every missing ancestor, shallowest first, and failing when a
recorded ancestor is not a directory.  On a normalized path, Go `path.Dir`
is `List.dropLast` of the element list (theorem `pathDir_joinSlash` below).
The Go function recurses on the parent path; it is embedded with a
structural fuel argument (the recursion depth is bounded by the number of
path elements, and `ensureParentDirectory` below supplies exactly enough
fuel, so the zero-fuel fallback is unreachable). -/
def ensureParentDirectoryFuel : Nat → Builder → List Str → Builder × Option TarError
  | 0, b, _ => (b, none)
  | fuel + 1, b, np =>
    if np.dropLast = [] then (b, none)
    else
      match findType b.entries np.dropLast with
      | some t =>
        if t = .dir then (b, none)
        else (b, some (.addError np.dropLast .duplicateEntry))
      | none =>
        match ensureParentDirectoryFuel fuel b np.dropLast with
        | (b', some e) => (b', some e)
        | (b', none) =>
          ({ b' with
              entries := (np.dropLast, EntryType.dir) :: b'.entries,
              output := b'.output ++ [dirEntry np.dropLast b'.defaultModTime] }, none)

def ensureParentDirectory (b : Builder) (np : List Str) : Builder × Option TarError :=
  ensureParentDirectoryFuel np.length b np

/-- Embedding of `Builder.Add` (src/unnamed/part_004 lines 179-234) plus one
check that is modelled from the spec.

Modelled from the spec: the revision of `tarbuild.Add` defining
`ErrEntryOutsideOfArchive` is absent from the sources (only
src/internal/tarbuild/tarbuild_test.go references it); per the spec, "paths
that normalize to `.` or escape the archive root (e.g., the cleaned form
starts with `..`) are rejected with a path-outside-archive error", which is
the `outsideArchive` test below, placed after normalization and before any
other effect.

The rest follows the source: a duplicate path fails; the path is recorded
as a regular entry (regardless of the file type) before the parent chain is
ensured; the header receives the normalized name ("/"-suffixed for
directories), uid = gid = 0, and the Stat size, mode and modification time;
regular content is then copied, the `archive/tar` size discipline failing
the builder when the content length differs from the declared size. -/
def Builder.add (b : Builder) (p : Str) (file : TFile) : Builder × Option TarError :=
  match b.err with
  | some e => (b, some e)
  | none =>
    let np := normalizePath p
    if outsideArchive np then
      let e := TarError.addError np .entryOutsideOfArchive
      ({ b with err := some e }, some e)
    else
      match findType b.entries np with
      | some _ =>
        let e := TarError.addError np .duplicateEntry
        ({ b with err := some e }, some e)
      | none =>
        let b₁ := { b with entries := (np, EntryType.reg) :: b.entries }
        match ensureParentDirectory b₁ np with
        | (b₂, some e) => ({ b₂ with err := some e }, some e)
        | (b₂, none) =>
          if file.isDir then
            ({ b₂ with
                output := b₂.output ++
                  [{ segs := np, etype := .dir, mode := file.mode,
                     modTime := file.modTime }] }, none)
          else
            let b₃ := { b₂ with
              output := b₂.output ++
                [{ segs := np, etype := .reg, mode := file.mode,
                   modTime := file.modTime, size := file.size,
                   content := file.content }] }
            if (encodeFD file.content).length = file.size then (b₃, none)
            else
              let e := TarError.addError np .sizeMismatch
              ({ b₃ with err := some e }, some e)

/-- Embedding of `Builder.AddContent` (src/unnamed/part_004 lines 156-163):
add the content as a regular file with mode 644 and the builder's
`DefaultModTime`. -/
def Builder.addContent (b : Builder) (p : Str) (content : FileData) :
    Builder × Option TarError :=
  b.add p
    { content := content, size := (encodeFD content).length, mode := 0o644,
      modTime := b.defaultModTime }

/-- Embedding of `Builder.Close` (src/unnamed/part_004 lines 276-288): a
failed builder returns its error; otherwise the footer is written
(`tar.Writer.Close`) and the builder transitions to the closed state by
storing `ErrBuilderClosed`. -/
def Builder.close (b : Builder) : Builder × Option TarError :=
  match b.err with
  | some e => (b, some e)
  | none => ({ b with footerWritten := true, err := some .builderClosed }, none)

/-! ### Structure of normalized paths -/

theorem splitSlash_cons (c : Char) (cs : Str) :
    splitSlash (c :: cs) =
      if c = '/' then [] :: splitSlash cs
      else (splitSlash cs).modifyHead (List.cons c) := by
  unfold splitSlash
  rw [List.splitOn, List.splitOnP_cons]
  by_cases hc : c = '/' <;> simp [hc, List.splitOn]

theorem mem_splitSlash_no_slash (p : Str) : ∀ x ∈ splitSlash p, '/' ∉ x := by
  induction p with
  | nil =>
    intro x hx
    unfold splitSlash at hx
    simp at hx
    simp [hx]
  | cons c cs ih =>
    intro x hx
    rw [splitSlash_cons] at hx
    by_cases hc : c = '/'
    · rw [if_pos hc] at hx
      rcases List.mem_cons.mp hx with rfl | hx
      · simp
      · exact ih x hx
    · rw [if_neg hc] at hx
      rcases hsplit : splitSlash cs with _ | ⟨h, t⟩
      · exact absurd hsplit (List.splitOnP_ne_nil _ cs)
      · rw [hsplit] at hx
        simp only [List.modifyHead, List.mem_cons] at hx
        rcases hx with rfl | hx
        · intro hmem
          rcases List.mem_cons.mp hmem with rfl | hmem
          · exact hc rfl
          · exact ih h (by rw [hsplit]; exact List.mem_cons_self h t) hmem
        · exact ih x (by rw [hsplit]; exact List.mem_cons_of_mem h hx)

theorem mem_cleanStep (rooted : Bool) (stack : List Str) (seg s : Str)
    (hs : s ∈ cleanStep rooted stack seg) : s ∈ stack ∨ (s = seg ∧ s ≠ ['.']) := by
  unfold cleanStep at hs
  by_cases h1 : seg = ['.']
  · rw [if_pos h1] at hs; exact Or.inl hs
  · rw [if_neg h1] at hs
    by_cases h2 : seg = ['.', '.']
    · rw [if_pos h2] at hs
      split at hs
      · exact Or.inl (List.dropLast_subset _ hs)
      · split at hs
        · exact Or.inl hs
        · rcases List.mem_append.mp hs with hs | hs
          · exact Or.inl hs
          · simp at hs; exact Or.inr ⟨by rw [hs, h2], by rw [hs, h2]; decide⟩
    · rw [if_neg h2] at hs
      rcases List.mem_append.mp hs with hs | hs
      · exact Or.inl hs
      · simp at hs; exact Or.inr ⟨hs, by rw [hs]; exact h1⟩

theorem mem_foldl_cleanStep (rooted : Bool) (segs : List Str) (stack : List Str) :
    ∀ s ∈ segs.foldl (cleanStep rooted) stack, s ∈ stack ∨ (s ∈ segs ∧ s ≠ ['.']) := by
  induction segs generalizing stack with
  | nil => intro s hs; exact Or.inl hs
  | cons a rest ih =>
    intro s hs
    rw [List.foldl_cons] at hs
    rcases ih (cleanStep rooted stack a) s hs with hmem | ⟨hmem, hdot⟩
    · rcases mem_cleanStep rooted stack a s hmem with hmem | ⟨rfl, hdot⟩
      · exact Or.inl hmem
      · exact Or.inr ⟨List.mem_cons_self _ _, hdot⟩
    · exact Or.inr ⟨List.mem_cons_of_mem a hmem, hdot⟩

/-- The ".." elements of a cleaned relative path form a leading run. -/
def ddRun (stack : List Str) : Prop :=
  ∃ k rest, stack = List.replicate k ['.', '.'] ++ rest ∧ ['.', '.'] ∉ rest

theorem ddRun_cleanStep (rooted : Bool) (stack : List Str) (seg : Str)
    (h : ddRun stack) : ddRun (cleanStep rooted stack seg) := by
  obtain ⟨k, rest, hst, hmem⟩ := h
  unfold cleanStep
  by_cases h1 : seg = ['.']
  · rw [if_pos h1]; exact ⟨k, rest, hst, hmem⟩
  · rw [if_neg h1]
    by_cases h2 : seg = ['.', '.']
    · rw [if_pos h2]
      split
      · rename_i hcond
        rcases hrest : rest with _ | ⟨r, rs⟩
        · subst hrest
          rw [List.append_nil] at hst
          rcases hk : k with _ | k'
          · exact absurd (by rw [hst, hk]; rfl) hcond.1
          · exfalso
            apply hcond.2
            rw [hst, hk, List.replicate_succ', List.getLast?_concat]
        · refine ⟨k, (r :: rs).dropLast, ?_,
            fun hc => hmem (by rw [hrest]; exact List.dropLast_subset _ hc)⟩
          rw [hst, hrest, List.dropLast_append_cons]
      · split
        · exact ⟨k, rest, hst, hmem⟩
        · rename_i hcond _
          rw [not_and_or] at hcond
          have hrest : rest = [] := by
            rcases hcond with hcond | hcond
            · simp only [ne_eq, not_not] at hcond
              rw [hcond] at hst
              exact (List.append_eq_nil.mp hst.symm).2
            · simp only [ne_eq, not_not] at hcond
              rcases hr : rest with _ | ⟨r, rs⟩
              · rfl
              · exfalso
                apply hmem
                apply List.mem_of_getLast?_eq_some (a := ['.', '.'])
                have : stack.getLast? = rest.getLast? := by
                  rw [hst, List.getLast?_append, hr]
                  simp [List.getLast?_eq_getLast_of_ne_nil (l := r :: rs) (by simp)]
                rw [← this, hcond]
          subst hrest
          rw [List.append_nil] at hst
          refine ⟨k + 1, [], ?_, by simp⟩
          rw [hst, h2, List.replicate_succ', List.append_nil]
    · rw [if_neg h2]
      refine ⟨k, rest ++ [seg], by rw [hst, List.append_assoc], ?_⟩
      intro hc
      rcases List.mem_append.mp hc with hc | hc
      · exact hmem hc
      · simp at hc; exact h2 hc.symm

theorem ddRun_foldl (rooted : Bool) (segs : List Str) (stack : List Str)
    (h : ddRun stack) : ddRun (segs.foldl (cleanStep rooted) stack) := by
  induction segs generalizing stack with
  | nil => exact h
  | cons a rest ih => exact ih _ (ddRun_cleanStep rooted stack a h)

theorem ddRun_normalizePath (p : Str) : ddRun (normalizePath p) :=
  ddRun_foldl _ _ [] ⟨0, [], rfl, by simp⟩

/-- A path that passes the outside-archive test normalizes to a nonempty list
of plain segments. -/
theorem normalizePath_plain (p : Str) (h : ¬ outsideArchive (normalizePath p)) :
    normalizePath p ≠ [] ∧ ∀ s ∈ normalizePath p, plainSeg s := by
  rw [outsideArchive, not_or] at h
  refine ⟨h.1, fun s hs => ?_⟩
  have hmem := mem_foldl_cleanStep (isRooted p) _ [] s hs
  rcases hmem with hmem | ⟨hmem, hdot⟩
  · simp at hmem
  · have hmem' := List.mem_filter.mp hmem
    have hne : s ≠ [] := by
      have := hmem'.2
      simp only [Bool.not_eq_true', List.isEmpty_eq_false] at this
      exact this
    have hslash : '/' ∉ s := mem_splitSlash_no_slash p s hmem'.1
    refine ⟨hne, hslash, hdot, ?_⟩
    obtain ⟨k, rest, hst, hnd⟩ := ddRun_normalizePath p
    rcases hk : k with _ | k'
    · subst hk
      rw [List.replicate_zero, List.nil_append] at hst
      rw [hst] at hs
      exact fun hdd => hnd (hdd ▸ hs)
    · exfalso
      apply h.2
      rw [hst, hk, List.replicate_succ, List.cons_append]
      rfl

/-! ### The tar builder invariant -/

theorem findType_cons (k : List Str) (t' : EntryType) (es : List (List Str × EntryType))
    (np : List Str) :
    findType ((k, t') :: es) np = if k = np then some t' else findType es np := rfl

theorem findType_mem (es : List (List Str × EntryType)) (np : List Str) (ty : EntryType)
    (h : findType es np = some ty) : (np, ty) ∈ es := by
  induction es with
  | nil => simp [findType] at h
  | cons kv rest ih =>
    obtain ⟨k, t'⟩ := kv
    rw [findType_cons] at h
    by_cases hk : k = np
    · rw [if_pos hk] at h
      cases h
      subst hk
      exact List.mem_cons_self _ _
    · rw [if_neg hk] at h
      exact List.mem_cons_of_mem _ (ih h)

theorem proper_prefix_iff (np a : List Str) (h : np ≠ []) :
    (a <+: np ∧ a ≠ np) ↔ a <+: np.dropLast := by
  constructor
  · rintro ⟨hpre, hne⟩
    rw [← List.dropLast_concat_getLast h] at hpre
    rcases List.prefix_concat_iff.mp hpre with heq | hpre'
    · exact absurd (by rw [heq, List.dropLast_concat_getLast h]) hne
    · exact hpre'
  · intro hpre
    have hlt : np.dropLast.length < np.length := by
      rw [List.length_dropLast]
      rcases np with _ | ⟨x, xs⟩
      · exact absurd rfl h
      · simp
    constructor
    · exact hpre.trans ⟨[np.getLast h], List.dropLast_concat_getLast h⟩
    · intro heq
      have := hpre.length_le
      rw [heq] at this
      omega

theorem split_snoc {α : Type} (l₁ l₂ l₃ : List α) (x y : α)
    (h : l₁ ++ [x] = l₂ ++ y :: l₃) :
    (l₂ = l₁ ∧ y = x ∧ l₃ = []) ∨ (∃ l₄, l₁ = l₂ ++ y :: l₄ ∧ l₃ = l₄ ++ [x]) := by
  rcases List.eq_nil_or_concat l₃ with rfl | ⟨l₄, z, rfl⟩
  · obtain ⟨h1, h2⟩ := List.append_inj' h (by simp)
    refine Or.inl ⟨h1.symm, ?_, rfl⟩
    simpa using h2.symm
  · have h' : l₁ ++ [x] = (l₂ ++ y :: l₄) ++ [z] := by
      rw [h, List.concat_eq_append]
      simp
    obtain ⟨h1, h2⟩ := List.append_inj' h' (by simp)
    simp only [List.cons.injEq, and_true] at h2
    exact Or.inr ⟨l₄, h1, by rw [List.concat_eq_append, h2]⟩

/-- The invariant maintained by every tar builder operation: entry-map keys
are nonempty plain paths; every directory recorded in the map was synthesized
(written as a canonical `dirEntry` with the builder's default modification
time) and its ancestor chain is fully recorded; all written entries have
uid = gid = 0 and nonempty plain name elements; and within the output stream
every entry is preceded by canonical directory entries for all of its proper
ancestors. -/
structure BInv (t : Nat) (b : Builder) : Prop where
  mtime : b.defaultModTime = t
  keysPlain : ∀ np ty, (np, ty) ∈ b.entries → np ≠ [] ∧ ∀ s ∈ np, plainSeg s
  dirWritten : ∀ np, findType b.entries np = some EntryType.dir → dirEntry np t ∈ b.output
  dirClosed : ∀ np, findType b.entries np = some EntryType.dir →
    ∀ a, a ≠ [] → a <+: np → a ≠ np → findType b.entries a = some EntryType.dir
  shape : ∀ e ∈ b.output, e.uid = 0 ∧ e.gid = 0 ∧ e.segs ≠ [] ∧ ∀ s ∈ e.segs, plainSeg s
  ordered : ∀ o₁ e o₂, b.output = o₁ ++ e :: o₂ →
    ∀ a, a ≠ [] → a <+: e.segs → a ≠ e.segs → dirEntry a t ∈ o₁

theorem ordered_snoc (t : Nat) (out : List Entry) (e : Entry)
    (hord : ∀ o₁ e' o₂, out = o₁ ++ e' :: o₂ →
      ∀ a, a ≠ [] → a <+: e'.segs → a ≠ e'.segs → dirEntry a t ∈ o₁)
    (hnew : ∀ a, a ≠ [] → a <+: e.segs → a ≠ e.segs → dirEntry a t ∈ out) :
    ∀ o₁ e' o₂, out ++ [e] = o₁ ++ e' :: o₂ →
      ∀ a, a ≠ [] → a <+: e'.segs → a ≠ e'.segs → dirEntry a t ∈ o₁ := by
  intro o₁ e' o₂ hsplit a ha hpre hne
  rcases split_snoc out o₁ o₂ e e' hsplit with ⟨rfl, rfl, rfl⟩ | ⟨l₄, hout, rfl⟩
  · exact hnew a ha hpre hne
  · exact hord o₁ e' l₄ hout a ha hpre hne

theorem BInv_newBuilder (t : Nat) : BInv t (newBuilder t) := by
  refine ⟨rfl, ?_, ?_, ?_, ?_, ?_⟩
  · intro np ty h; simp [newBuilder] at h
  · intro np h; simp [newBuilder, findType] at h
  · intro np h; simp [newBuilder, findType] at h
  · intro e h; simp [newBuilder] at h
  · intro o₁ e o₂ h
    exfalso
    have : (newBuilder t).output = [] := rfl
    rw [this] at h
    exact List.cons_ne_nil _ _ (List.append_eq_nil.mp h.symm).2

/-- Specification of `ensureParentDirectory`: a failure leaves the builder
untouched; a success preserves the invariant, leaves the error and default
time untouched, only appends to the output, only extends the entry map, and
afterwards every proper nonempty ancestor of the path is recorded as a
directory. -/
theorem ensureFuel_spec (t : Nat) (n : Nat) : ∀ np : List Str, np.length ≤ n →
    ∀ b : Builder, BInv t b → np ≠ [] → (∀ s ∈ np, plainSeg s) →
    (∀ b' e, ensureParentDirectoryFuel n b np = (b', some e) → b' = b) ∧
    (∀ b', ensureParentDirectoryFuel n b np = (b', none) →
      BInv t b' ∧ b'.err = b.err ∧ b'.defaultModTime = b.defaultModTime ∧
      (∃ suff, b'.output = b.output ++ suff) ∧
      (∀ q ty, findType b.entries q = some ty → findType b'.entries q = some ty) ∧
      (∀ a, a ≠ [] → a <+: np → a ≠ np → findType b'.entries a = some EntryType.dir)) := by
  induction n with
  | zero =>
    intro np hlen b hb hne hplain
    rw [List.length_eq_zero.mp (Nat.le_zero.mp hlen)] at hne
    exact absurd rfl hne
  | succ n ih =>
    intro np hlen b hb hne hplain
    rw [ensureParentDirectoryFuel]
    by_cases hp : np.dropLast = []
    · rw [if_pos hp]
      constructor
      · intro b' e h
        simp at h
      · intro b' h
        simp only [Prod.mk.injEq] at h
        rw [← h.1]
        refine ⟨hb, rfl, rfl, ⟨[], by simp⟩, fun q ty hq => hq, ?_⟩
        intro a ha hpre hneq
        have := (proper_prefix_iff np a hne).mp ⟨hpre, hneq⟩
        rw [hp] at this
        exact absurd (List.prefix_nil.mp this) ha
    · rw [if_neg hp]
      have hplain' : ∀ s ∈ np.dropLast, plainSeg s :=
        fun s hs => hplain s (List.dropLast_subset _ hs)
      have hlen' : np.dropLast.length ≤ n := by
        rw [List.length_dropLast]
        rcases np with _ | ⟨x, xs⟩
        · exact absurd rfl hne
        · simp at hlen ⊢
          omega
      cases hft : findType b.entries np.dropLast with
      | some ty =>
        by_cases hdir : ty = EntryType.dir
        · subst hdir
          simp only [hft, reduceIte]
          constructor
          · intro b' e h
            simp at h
          · intro b' h
            simp only [Prod.mk.injEq] at h
            rw [← h.1]
            refine ⟨hb, rfl, rfl, ⟨[], by simp⟩, fun q ty hq => hq, ?_⟩
            intro a ha hpre hneq
            have hpre' := (proper_prefix_iff np a hne).mp ⟨hpre, hneq⟩
            rcases eq_or_ne a np.dropLast with rfl | hne2
            · exact hft
            · exact hb.dirClosed np.dropLast hft a ha hpre' hne2
        · simp only [hft, if_neg hdir]
          constructor
          · intro b' e h
            simp only [Prod.mk.injEq] at h
            exact h.1.symm
          · intro b' h
            simp at h
      | none =>
        simp only [hft]
        obtain ⟨ihErr, ihOk⟩ := ih np.dropLast hlen' b hb hp hplain'
        rcases hrec : ensureParentDirectoryFuel n b np.dropLast with ⟨b', e?⟩
        cases e? with
        | some e =>
          simp only [hrec]
          constructor
          · intro b'' e' h
            simp only [Prod.mk.injEq] at h
            rw [← h.1]
            exact ihErr b' e hrec
          · intro b'' h
            simp at h
        | none =>
          simp only [hrec]
          obtain ⟨hbInv', herr', hmt', ⟨suff, hout'⟩, hpres', hanc'⟩ := ihOk b' hrec
          constructor
          · intro b'' e h
            simp at h
          · intro b'' h
            simp only [Prod.mk.injEq] at h
            rw [← h.1]
            have ht : b'.defaultModTime = t := by rw [hmt', hb.mtime]
            refine ⟨?_, herr', hmt', ⟨suff ++ [dirEntry np.dropLast b'.defaultModTime],
              by rw [hout', List.append_assoc]⟩, ?_, ?_⟩
            · refine ⟨hmt'.trans hb.mtime, ?_, ?_, ?_, ?_, ?_⟩
              · intro q ty hq
                rcases List.mem_cons.mp hq with heq | hq
                · cases heq
                  exact ⟨hp, hplain'⟩
                · exact hbInv'.keysPlain q ty hq
              · intro q hq
                rw [findType_cons] at hq
                by_cases hqe : np.dropLast = q
                · subst hqe
                  rw [ht]
                  exact List.mem_append.mpr (Or.inr (List.mem_singleton.mpr rfl))
                · rw [if_neg hqe] at hq
                  exact List.mem_append.mpr (Or.inl (hbInv'.dirWritten q hq))
              · intro q hq a ha hpre hneq
                rw [findType_cons] at hq ⊢
                by_cases hae : np.dropLast = a
                · rw [if_pos hae]
                · rw [if_neg hae]
                  by_cases hqe : np.dropLast = q
                  · subst hqe
                    rw [if_pos rfl] at hq
                    exact hanc' a ha hpre hneq
                  · rw [if_neg hqe] at hq
                    exact hbInv'.dirClosed q hq a ha hpre hneq
              · intro e he
                rcases List.mem_append.mp he with he | he
                · exact hbInv'.shape e he
                · rw [List.mem_singleton.mp he]
                  exact ⟨rfl, rfl, hp, hplain'⟩
              · rw [ht]
                refine ordered_snoc t b'.output (dirEntry np.dropLast t)
                  hbInv'.ordered ?_
                intro a ha hpre hneq
                exact hbInv'.dirWritten a (hanc' a ha hpre hneq)
            · intro q ty hq
              rw [findType_cons]
              by_cases hqe : np.dropLast = q
              · subst hqe
                rw [hft] at hq
                cases hq
              · rw [if_neg hqe]
                exact hpres' q ty hq
            · intro a ha hpre hneq
              rw [findType_cons]
              by_cases hae : np.dropLast = a
              · rw [if_pos hae]
              · rw [if_neg hae]
                have hpre' := (proper_prefix_iff np a hne).mp ⟨hpre, hneq⟩
                exact hanc' a ha hpre' (fun h => hae h.symm)

/-- The specification of `ensureParentDirectory`, from `ensureFuel_spec` at
the exact fuel supplied by the wrapper. -/
theorem ensure_spec (t : Nat) (np : List Str) (b : Builder) (hb : BInv t b)
    (hne : np ≠ []) (hplain : ∀ s ∈ np, plainSeg s) :
    (∀ b' e, ensureParentDirectory b np = (b', some e) → b' = b) ∧
    (∀ b', ensureParentDirectory b np = (b', none) →
      BInv t b' ∧ b'.err = b.err ∧ b'.defaultModTime = b.defaultModTime ∧
      (∃ suff, b'.output = b.output ++ suff) ∧
      (∀ q ty, findType b.entries q = some ty → findType b'.entries q = some ty) ∧
      (∀ a, a ≠ [] → a <+: np → a ≠ np → findType b'.entries a = some EntryType.dir)) := by
  unfold ensureParentDirectory
  exact ensureFuel_spec t np.length np le_rfl b hb hne hplain

theorem BInv_err (t : Nat) (b : Builder) (e' : Option TarError) (hb : BInv t b) :
    BInv t { b with err := e' } :=
  ⟨hb.mtime, hb.keysPlain, hb.dirWritten, hb.dirClosed, hb.shape, hb.ordered⟩

theorem BInv_snoc (t : Nat) (b : Builder) (e : Entry) (hb : BInv t b)
    (hsegs : e.segs ≠ []) (hplain : ∀ s ∈ e.segs, plainSeg s)
    (huid : e.uid = 0) (hgid : e.gid = 0)
    (hnew : ∀ a, a ≠ [] → a <+: e.segs → a ≠ e.segs → dirEntry a t ∈ b.output) :
    BInv t { b with output := b.output ++ [e] } := by
  refine ⟨hb.mtime, hb.keysPlain, ?_, hb.dirClosed, ?_, ?_⟩
  · intro q hq
    exact List.mem_append.mpr (Or.inl (hb.dirWritten q hq))
  · intro e' he'
    rcases List.mem_append.mp he' with he' | he'
    · exact hb.shape e' he'
    · rw [List.mem_singleton.mp he']
      exact ⟨huid, hgid, hsegs, hplain⟩
  · exact ordered_snoc t b.output e hb.ordered hnew

/-- `Builder.add` preserves the builder invariant. -/
theorem add_preserves (t : Nat) (b : Builder) (p : Str) (f : TFile) (hb : BInv t b) :
    BInv t (b.add p f).1 := by
  obtain ⟨mt, out, es, fw, berr⟩ := b
  unfold Builder.add
  cases berr with
  | some e => exact hb
  | none =>
    simp only
    by_cases hout : outsideArchive (normalizePath p)
    · rw [if_pos hout]
      exact BInv_err t _ _ hb
    · rw [if_neg hout]
      obtain ⟨hne, hplain⟩ := normalizePath_plain p hout
      cases hfind : findType es (normalizePath p) with
      | some ty =>
        simp only [hfind]
        exact BInv_err t _ _ hb
      | none =>
        simp only [hfind]
        have hb₁ : BInv t (Builder.mk mt out
            ((normalizePath p, EntryType.reg) :: es) fw none) := by
          refine ⟨hb.mtime, ?_, ?_, ?_, hb.shape, hb.ordered⟩
          · intro q ty hq
            rcases List.mem_cons.mp hq with heq | hq
            · cases heq
              exact ⟨hne, hplain⟩
            · exact hb.keysPlain q ty hq
          · intro q hq
            rw [findType_cons] at hq
            by_cases hqe : normalizePath p = q
            · rw [if_pos hqe] at hq
              cases hq
            · rw [if_neg hqe] at hq
              exact hb.dirWritten q hq
          · intro q hq a ha hpre hneq
            rw [findType_cons] at hq ⊢
            by_cases hqe : normalizePath p = q
            · rw [if_pos hqe] at hq
              cases hq
            · rw [if_neg hqe] at hq
              by_cases hae : normalizePath p = a
              · exfalso
                have := hb.dirClosed q hq a ha hpre hneq
                simp only at this
                rw [← hae, hfind] at this
                cases this
              · rw [if_neg hae]
                exact hb.dirClosed q hq a ha hpre hneq
        obtain ⟨hensErr, hensOk⟩ := ensure_spec t (normalizePath p) _ hb₁ hne hplain
        rcases hens : ensureParentDirectory
            (Builder.mk mt out ((normalizePath p, EntryType.reg) :: es) fw none)
            (normalizePath p) with ⟨b₂, e?⟩
        cases e? with
        | some e =>
          simp only [hens]
          rw [hensErr b₂ e hens]
          exact BInv_err t _ _ hb₁
        | none =>
          simp only [hens]
          obtain ⟨hbInv₂, -, -, -, -, hanc⟩ := hensOk b₂ hens
          have hnew : ∀ a, a ≠ [] → a <+: normalizePath p → a ≠ normalizePath p →
              dirEntry a t ∈ b₂.output := by
            intro a ha hpre hneq
            exact hbInv₂.dirWritten a (hanc a ha hpre hneq)
          by_cases hdir : f.isDir
          · rw [if_pos hdir]
            exact BInv_snoc t b₂ _ hbInv₂ hne hplain rfl rfl hnew
          · rw [if_neg hdir]
            by_cases hsz : (encodeFD f.content).length = f.size
            · rw [if_pos hsz]
              exact BInv_snoc t b₂ _ hbInv₂ hne hplain rfl rfl hnew
            · rw [if_neg hsz]
              exact BInv_err t _ _ (BInv_snoc t b₂ _ hbInv₂ hne hplain rfl rfl hnew)

/-- The operations applied to a tar builder by its clients. -/
inductive TarOp
  | addOp (p : Str) (f : TFile)
  | addContentOp (p : Str) (c : FileData)
  | closeOp

/-- Apply one builder operation, keeping the resulting state. -/
def runOp (b : Builder) : TarOp → Builder
  | .addOp p f => (b.add p f).1
  | .addContentOp p c => (b.addContent p c).1
  | .closeOp => (b.close).1

/-- Run a sequence of builder operations from a given state. -/
def runOps (b : Builder) (ops : List TarOp) : Builder := ops.foldl runOp b

theorem runOp_preserves (t : Nat) (b : Builder) (op : TarOp) (hb : BInv t b) :
    BInv t (runOp b op) := by
  cases op with
  | addOp p f => exact add_preserves t b p f hb
  | addContentOp p c => exact add_preserves t b p _ hb
  | closeOp =>
    unfold runOp Builder.close
    cases herr : b.err with
    | some e => exact hb
    | none => exact ⟨hb.mtime, hb.keysPlain, hb.dirWritten, hb.dirClosed, hb.shape,
        hb.ordered⟩

theorem runOps_BInv (t : Nat) (ops : List TarOp) : BInv t (runOps (newBuilder t) ops) := by
  suffices h : ∀ b, BInv t b → BInv t (runOps b ops) from h _ (BInv_newBuilder t)
  induction ops with
  | nil => intro b hb; exact hb
  | cons op rest ih =>
    intro b hb
    exact ih _ (runOp_preserves t b op hb)

/-- C2: every input path whose normalized form is the archive root (e.g. "/"
or the empty string) or whose cleaned form escapes the archive root (leads
with ".."), is rejected by both add operations (Add and AddContent) with the
entry-outside-of-archive error, and no entry is written to the output stream
and no path is recorded.  The rejection itself is modelled from the spec (see
`Builder.add`). -/
theorem C2_outside_archive_rejected (b : Builder) (p : Str) (f : TFile) (c : FileData)
    (hok : b.err = none)
    (h : normalizePath p = [] ∨ (normalizePath p).head? = some ['.', '.']) :
    (b.add p f).2 = some (TarError.addError (normalizePath p) AddCause.entryOutsideOfArchive) ∧
    (b.add p f).1.output = b.output ∧
    (b.add p f).1.entries = b.entries ∧
    (b.addContent p c).2 =
      some (TarError.addError (normalizePath p) AddCause.entryOutsideOfArchive) ∧
    (b.addContent p c).1.output = b.output ∧
    (b.addContent p c).1.entries = b.entries := by
  obtain ⟨mt, out, es, fw, berr⟩ := b
  simp only at hok
  subst hok
  unfold Builder.addContent Builder.add
  simp only
  rw [if_pos (show outsideArchive (normalizePath p) from h),
    if_pos (show outsideArchive (normalizePath p) from h)]
  exact ⟨rfl, rfl, rfl, rfl, rfl, rfl⟩

/-- Witness for C2: the builder rejects "/" with the outside-of-archive
error. -/
theorem C2_outside_archive_rejected_witness :
    ((newBuilder 0).add "/".data { mode := 0, modTime := 0 }).2 =
      some (TarError.addError (normalizePath "/".data) AddCause.entryOutsideOfArchive) ∧
    ((newBuilder 0).add "/".data { mode := 0, modTime := 0 }).1.output =
      (newBuilder 0).output ∧
    ((newBuilder 0).add "/".data { mode := 0, modTime := 0 }).1.entries =
      (newBuilder 0).entries ∧
    ((newBuilder 0).addContent "/".data (FileData.raw [])).2 =
      some (TarError.addError (normalizePath "/".data) AddCause.entryOutsideOfArchive) ∧
    ((newBuilder 0).addContent "/".data (FileData.raw [])).1.output =
      (newBuilder 0).output ∧
    ((newBuilder 0).addContent "/".data (FileData.raw [])).1.entries =
      (newBuilder 0).entries :=
  C2_outside_archive_rejected (newBuilder 0) _ _ _ rfl (by decide)

/-- C8: a successful Close writes the tar footer and transitions the builder
to the closed state; a second Close leaves the state unchanged (idempotent
finish) and, like every other operation on the closed builder, returns the
builder-closed error without writing anything; and when a prior add failed,
Close returns that prior error and does not write the footer. -/
theorem C8_close_lifecycle (b : Builder) (p : Str) (f : TFile) (c : FileData) :
    (b.err = none →
      b.close = ({ b with footerWritten := true, err := some TarError.builderClosed }, none) ∧
      (b.close).1.close = ((b.close).1, some TarError.builderClosed) ∧
      (b.close).1.add p f = ((b.close).1, some TarError.builderClosed) ∧
      (b.close).1.addContent p c = ((b.close).1, some TarError.builderClosed)) ∧
    (∀ e, b.err = some e → b.close = (b, some e)) := by
  obtain ⟨mt, out, es, fw, berr⟩ := b
  constructor
  · intro h
    simp only at h
    subst h
    unfold Builder.close Builder.addContent Builder.add
    exact ⟨rfl, rfl, rfl, rfl⟩
  · intro e h
    simp only at h
    subst h
    unfold Builder.close
    rfl

/-- Witness for C8: the lifecycle theorem applied to a fresh builder and to a
builder with a recorded add failure. -/
theorem C8_close_lifecycle_witness :
    ((newBuilder 0).close =
      ({ newBuilder 0 with footerWritten := true, err := some TarError.builderClosed },
        none) ∧
      ((newBuilder 0).close).1.close =
        (((newBuilder 0).close).1, some TarError.builderClosed) ∧
      ((newBuilder 0).close).1.add "a".data { mode := 0, modTime := 0 } =
        (((newBuilder 0).close).1, some TarError.builderClosed) ∧
      ((newBuilder 0).close).1.addContent "a".data (FileData.raw []) =
        (((newBuilder 0).close).1, some TarError.builderClosed)) ∧
    ({ newBuilder 0 with err := some (TarError.addError [] AddCause.duplicateEntry) }.close =
      ({ newBuilder 0 with err := some (TarError.addError [] AddCause.duplicateEntry) },
        some (TarError.addError [] AddCause.duplicateEntry))) :=
  ⟨(C8_close_lifecycle (newBuilder 0) "a".data { mode := 0, modTime := 0 }
      (FileData.raw [])).1 rfl,
    (C8_close_lifecycle
      { newBuilder 0 with err := some (TarError.addError [] AddCause.duplicateEntry) }
      "a".data { mode := 0, modTime := 0 } (FileData.raw [])).2 _ rfl⟩

/-- C7: in every tar stream emitted by the builder, each entry has uid = gid
= 0 and a clean relative name (nonempty plain elements, "/"-suffixed exactly
for directories), and each entry is preceded in the stream by a synthesized
directory entry for every proper ancestor of its path; `dirEntry a t` is by
definition the directory entry with name `joinSlash a ++ "/"`, mode 0755,
uid = gid = 0 and modification time the builder's DefaultModTime, and
applying the statement to the ancestor entries themselves yields the
shallowest-first ordering. -/
theorem C7_parent_synthesis (t : Nat) (ops : List TarOp) (e : Entry)
    (o₁ o₂ : List Entry)
    (hsplit : (runOps (newBuilder t) ops).output = o₁ ++ e :: o₂) :
    (e.uid = 0 ∧ e.gid = 0 ∧ e.segs ≠ [] ∧ (∀ s ∈ e.segs, plainSeg s) ∧
      (e.etype = EntryType.reg → e.name = joinSlash e.segs) ∧
      (e.etype = EntryType.dir → e.name = joinSlash e.segs ++ ['/'])) ∧
    (∀ a, a ≠ [] → a <+: e.segs → a ≠ e.segs →
      dirEntry a t ∈ o₁ ∧ (dirEntry a t).mode = 0o755 ∧ (dirEntry a t).uid = 0 ∧
      (dirEntry a t).gid = 0 ∧ (dirEntry a t).modTime = t ∧
      (dirEntry a t).name = joinSlash a ++ ['/'] ∧
      (dirEntry a t).etype = EntryType.dir) := by
  have hb := runOps_BInv t ops
  have hmem : e ∈ (runOps (newBuilder t) ops).output := by
    rw [hsplit]
    exact List.mem_append.mpr (Or.inr (List.mem_cons_self _ _))
  obtain ⟨huid, hgid, hne, hplain⟩ := hb.shape e hmem
  constructor
  · refine ⟨huid, hgid, hne, hplain, ?_, ?_⟩
    · intro hty
      unfold Entry.name
      rw [hty]
    · intro hty
      unfold Entry.name
      rw [hty]
  · intro a ha hpre hneq
    exact ⟨hb.ordered o₁ e o₂ hsplit a ha hpre hneq, rfl, rfl, rfl, rfl, rfl, rfl⟩

/-- Witness for C7: adding "etc/hostname" to a fresh builder synthesizes the
"etc/" directory entry ahead of the file entry. -/
theorem C7_parent_synthesis_witness :
    dirEntry ["etc".data] 7 ∈ [dirEntry ["etc".data] 7] :=
  ((C7_parent_synthesis 7 [TarOp.addContentOp "etc/hostname".data (FileData.raw [3])]
      { segs := ["etc".data, "hostname".data], etype := EntryType.reg, mode := 0o644,
        modTime := 7, size := 1, content := FileData.raw [3] }
      [dirEntry ["etc".data] 7] [] (by decide)).2
    ["etc".data] (by decide) (by decide) (by decide)).1

/-! ### The image model (`internal/image/image.go`) -/

/-- `image.Layer` (src/internal/image/image.go lines 72-76): descriptor, diff
ID, and the bytes yielded by the `OpenBlob` thunk (each invocation of the
thunk returns a fresh reader over these bytes, so the thunk is modeled by the
bytes themselves). -/
structure ImgLayer where
  descriptor : Descriptor
  diffID : Digest
  blob : List Nat
deriving DecidableEq

/-- `image.Image` (src/internal/image/image.go lines 49-59). -/
structure Image where
  layers : List ImgLayer := []
  config : ImageConfig := {}
  platform : Platform := { os := [], architecture := [] }
  annotations : List (Str × Str) := []
deriving DecidableEq

/-- Embedding of `Image.AppendLayer` (src/internal/image/image.go lines
80-83): append the layer and its diff ID. -/
def Image.appendLayer (img : Image) (layer : ImgLayer) : Image :=
  { img with
    layers := img.layers ++ [layer],
    config := { img.config with diffIDs := img.config.diffIDs ++ [layer.diffID] } }

theorem appendLayer_foldl (img : Image) (ls : List ImgLayer)
    (hinv : img.config.diffIDs = img.layers.map ImgLayer.diffID) :
    (ls.foldl Image.appendLayer img).config.diffIDs =
      (ls.foldl Image.appendLayer img).layers.map ImgLayer.diffID := by
  induction ls generalizing img with
  | nil => exact hinv
  | cons l rest ih =>
    rw [List.foldl_cons]
    apply ih
    simp [Image.appendLayer, hinv]

/-- C6: if the image invariant holds initially, then after any finite
sequence of AppendLayer calls the config's diff-ID list has the same length
as the layer list and agrees with the layers' diff IDs at every index. -/
theorem C6_appendLayer_invariant (img : Image) (ls : List ImgLayer)
    (hinv : img.config.diffIDs = img.layers.map ImgLayer.diffID) :
    (ls.foldl Image.appendLayer img).config.diffIDs.length =
      (ls.foldl Image.appendLayer img).layers.length ∧
    ∀ i, (hi : i < (ls.foldl Image.appendLayer img).layers.length) →
      (hd : i < (ls.foldl Image.appendLayer img).config.diffIDs.length) →
      (ls.foldl Image.appendLayer img).config.diffIDs[i] =
        ((ls.foldl Image.appendLayer img).layers[i]).diffID := by
  have h := appendLayer_foldl img ls hinv
  constructor
  · rw [h, List.length_map]
  · intro i hi hd
    rw [List.getElem_of_eq h, List.getElem_map]

/-- Witness for C6: two layers appended to the empty image. -/
theorem C6_appendLayer_invariant_witness :
    (([{ descriptor := { mediaType := [], digest := Digest.emptyD, size := 0 },
         diffID := { algorithm := "sha256".data, encoded := "aa".data }, blob := [] },
       { descriptor := { mediaType := [], digest := Digest.emptyD, size := 0 },
         diffID := { algorithm := "sha256".data, encoded := "bb".data }, blob := [] }
      ].foldl Image.appendLayer {}).config.diffIDs.length =
      ([{ descriptor := { mediaType := [], digest := Digest.emptyD, size := 0 },
          diffID := { algorithm := "sha256".data, encoded := "aa".data }, blob := [] },
        { descriptor := { mediaType := [], digest := Digest.emptyD, size := 0 },
          diffID := { algorithm := "sha256".data, encoded := "bb".data }, blob := [] }
       ].foldl Image.appendLayer {}).layers.length) :=
  (C6_appendLayer_invariant {} _ rfl).1

/-! ### The ocibuild model (`internal/ocibuild/ocibuild.go`) -/

/-- `ocibuild.Layer` (src/internal/ocibuild/ocibuild.go lines 25-29):
descriptor, diff ID and the full blob content. -/
structure OBLayer where
  descriptor : Descriptor
  diffID : Digest
  blob : List Nat
deriving DecidableEq

/-- `ocibuild.Image` (src/internal/ocibuild/ocibuild.go lines 19-22). -/
structure OBImage where
  config : ImageConfig := {}
  layers : List OBLayer := []
deriving DecidableEq

/-- Embedding of ocibuild `Image.AppendLayer` (src/internal/ocibuild/
ocibuild.go lines 36-50): populate an empty descriptor digest from the blob
bytes and a zero descriptor size from the blob length, then append the layer,
its diff ID, and one history record created by "zeroimage".  The wall clock
`now()` is passed as a parameter. -/
def OBImage.appendLayer (img : OBImage) (now : Nat) (layer : OBLayer) : OBImage :=
  let d₁ := if layer.descriptor.digest = Digest.emptyD
            then { layer.descriptor with digest := digestFromBytes layer.blob }
            else layer.descriptor
  let d₂ := if d₁.size = 0 then { d₁ with size := layer.blob.length } else d₁
  { img with
    layers := img.layers ++ [{ layer with descriptor := d₂ }],
    config := { img.config with
      diffIDs := img.config.diffIDs ++ [layer.diffID],
      history := img.config.history ++
        [{ created := some now, createdBy := "zeroimage".data }] } }

/-- C10: every ocibuild AppendLayer call appends exactly one history record
with CreatedBy "zeroimage" and exactly one layer (history and layer counts
grow in lockstep), appends the layer's diff ID, and populates an empty
descriptor digest from the blob bytes and a zero descriptor size from the
blob length; a non-empty digest and non-zero size are kept. -/
theorem C10_appendLayer_history (img : OBImage) (now : Nat) (layer : OBLayer) :
    (img.appendLayer now layer).config.history.length =
      img.config.history.length + 1 ∧
    (img.appendLayer now layer).layers.length = img.layers.length + 1 ∧
    (img.appendLayer now layer).config.history.getLast? =
      some { created := some now, createdBy := "zeroimage".data } ∧
    (img.appendLayer now layer).config.diffIDs =
      img.config.diffIDs ++ [layer.diffID] ∧
    (layer.descriptor.digest = Digest.emptyD →
      ((img.appendLayer now layer).layers.getLast?).map
          (fun l => l.descriptor.digest) = some (digestFromBytes layer.blob)) ∧
    (layer.descriptor.digest ≠ Digest.emptyD →
      ((img.appendLayer now layer).layers.getLast?).map
          (fun l => l.descriptor.digest) = some layer.descriptor.digest) ∧
    (layer.descriptor.size = 0 →
      ((img.appendLayer now layer).layers.getLast?).map
          (fun l => l.descriptor.size) = some layer.blob.length) := by
  unfold OBImage.appendLayer
  dsimp only
  refine ⟨by simp, by simp, by rw [List.getLast?_concat], rfl, ?_, ?_, ?_⟩
  · intro h
    rw [List.getLast?_concat]
    rw [if_pos h]
    by_cases hsz : ({ layer.descriptor with digest := digestFromBytes layer.blob
        } : Descriptor).size = 0
    · rw [if_pos hsz]
      rfl
    · rw [if_neg hsz]
      rfl
  · intro h
    rw [List.getLast?_concat]
    rw [if_neg h]
    by_cases hsz : layer.descriptor.size = 0
    · rw [if_pos hsz]
      rfl
    · rw [if_neg hsz]
      rfl
  · intro h
    rw [List.getLast?_concat]
    by_cases hdg : layer.descriptor.digest = Digest.emptyD
    · rw [if_pos hdg, if_pos (show ({ layer.descriptor with
          digest := digestFromBytes layer.blob } : Descriptor).size = 0 from h)]
      rfl
    · rw [if_neg hdg, if_pos h]
      rfl

/-- Witness for C10: appending a layer with an empty digest and zero size to
the empty ocibuild image. -/
theorem C10_appendLayer_history_witness :
    (OBImage.appendLayer {} 3
        { descriptor := { mediaType := [], digest := Digest.emptyD, size := 0 },
          diffID := { algorithm := "sha256".data, encoded := "cc".data },
          blob := [7, 7] }).config.history.length = 0 + 1 ∧
    ((OBImage.appendLayer {} 3
        { descriptor := { mediaType := [], digest := Digest.emptyD, size := 0 },
          diffID := { algorithm := "sha256".data, encoded := "cc".data },
          blob := [7, 7] }).layers.getLast?).map (fun l => l.descriptor.size) =
      some 2 :=
  ⟨(C10_appendLayer_history {} 3 _).1,
    (C10_appendLayer_history {} 3 _).2.2.2.2.2.2 rfl⟩

/-! ### The layer constructors (`internal/tarlayer`, `internal/ocibuild`)

The dual-digest pipeline tees the tar byte stream into an uncompressed hash
and into gzip, whose output is teed into a compressed hash and a buffer.
Both hashes and the buffer are only read after the inner tar builder and the
gzip stream are closed, so the pipeline is modeled by deriving all four from
the complete tar byte stream at finish time.  `compress/gzip` is outside the
repository; it is modeled as a lossless coding (a three-byte header followed
by the input), of which the development only uses that decompression inverts
compression. -/

/-- Model of the gzip compressed form of a byte stream. -/
def gzipCompress (bs : List Nat) : List Nat := 31 :: 139 :: 8 :: bs

/-- Model of gzip decompression (`gzip.NewReader` plus draining); fails on a
stream that does not start with the gzip header. -/
def gzipUncompress (bs : List Nat) : Option (List Nat) :=
  match bs with
  | 31 :: 139 :: 8 :: rest => some rest
  | _ => none

theorem gzipUncompress_compress (bs : List Nat) :
    gzipUncompress (gzipCompress bs) = some bs := rfl

/-- The byte rendering of one tar entry (header fields then content),
standing in for the `archive/tar` wire format. -/
def encodeEntry (e : Entry) : List Nat :=
  encStr e.name ++
    [(match e.etype with | .reg => 0 | .dir => 5), e.mode, e.uid, e.gid, e.modTime,
      e.size] ++ encodeFD e.content

/-- The two-zero-block tar footer written by `tar.Writer.Close`. -/
def tarFooter : List Nat := List.replicate 1024 0

/-- The byte stream a builder has written to its sink: the entries in order,
then the footer once the builder was closed. -/
def tarStreamBytes (b : Builder) : List Nat :=
  (b.output.flatMap encodeEntry) ++ (if b.footerWritten then tarFooter else [])

/-- `tarlayer.Layer` (src/internal/tarlayer/tarlayer.go lines 19-23): the
compressed blob buffer and the two finalized hashes. -/
structure TLayer where
  blob : List Nat
  digest : Digest
  diffID : Digest
deriving DecidableEq

/-- `Layer.Compressed` (src/internal/tarlayer/tarlayer.go lines 33-35): a
fresh reader over the blob buffer on every invocation. -/
def TLayer.compressed (l : TLayer) : List Nat := l.blob

/-- `Layer.Uncompressed` (src/internal/tarlayer/tarlayer.go lines 37-39). -/
def TLayer.uncompressed (l : TLayer) : Option (List Nat) := gzipUncompress l.blob

/-- `Layer.Size` (src/internal/tarlayer/tarlayer.go lines 41-43). -/
def TLayer.size (l : TLayer) : Nat := l.blob.length

/-- `Layer.MediaType` (src/internal/tarlayer/tarlayer.go lines 45-47):
`types.OCILayer`. -/
def TLayer.mediaType (_ : TLayer) : Str := mtImageLayerGzip

/-- `tarlayer.Builder` (src/internal/tarlayer/tarlayer.go lines 50-68): the
inner tar builder; buffer and hashes are derived at finish time. -/
structure TLBuilder where
  tb : Builder

/-- Embedding of `tarlayer.Builder.Finish` (src/internal/tarlayer/tarlayer.go
lines 72-92): close the inner tar builder (propagating its error), close the
gzip stream, and return the layer whose blob is the compressed stream, whose
digest is the SHA-256 of the compressed bytes and whose diff ID is the
SHA-256 of the uncompressed tar bytes. -/
def TLBuilder.finish (lb : TLBuilder) : Except TarError TLayer :=
  match lb.tb.close with
  | (_, some e) => .error e
  | (b', none) =>
    .ok { blob := gzipCompress (tarStreamBytes b'),
          digest := { algorithm := "sha256".data,
                      encoded := sha256Hex (gzipCompress (tarStreamBytes b')) },
          diffID := { algorithm := "sha256".data,
                      encoded := sha256Hex (tarStreamBytes b') } }

/-- `ocibuild.LayerBuilder` (src/internal/ocibuild/ocibuild.go lines 54-62). -/
structure LayerBuilder where
  tb : Builder
  img : OBImage

/-- Embedding of ocibuild `Image.NewLayer` (src/internal/ocibuild/ocibuild.go
lines 66-75). -/
def OBImage.newLayer (img : OBImage) (modTime : Nat) : LayerBuilder :=
  { tb := newBuilder modTime, img := img }

/-- Embedding of ocibuild `LayerBuilder.Close` (src/internal/ocibuild/
ocibuild.go lines 78-95): close the inner tar builder and the gzip stream,
then append to the image a layer with the OCI gzip layer media type, the
compressed digest and buffer length in the descriptor, and the uncompressed
digest as diff ID. -/
def LayerBuilder.close (lb : LayerBuilder) (now : Nat) : Except TarError OBImage :=
  match lb.tb.close with
  | (_, some e) => .error e
  | (b', none) =>
    .ok (lb.img.appendLayer now
      { blob := gzipCompress (tarStreamBytes b'),
        diffID := { algorithm := "sha256".data,
                    encoded := sha256Hex (tarStreamBytes b') },
        descriptor := { mediaType := mtImageLayerGzip,
                        digest := { algorithm := "sha256".data,
                                    encoded := sha256Hex (gzipCompress (tarStreamBytes b')) },
                        size := (gzipCompress (tarStreamBytes b')).length } })

/-- A digest with the sha256 algorithm name is never the empty digest. -/
theorem sha256Digest_ne_empty (enc : Str) :
    ({ algorithm := "sha256".data, encoded := enc } : Digest) ≠ Digest.emptyD := by
  intro h
  have := congrArg Digest.algorithm h
  simp [Digest.emptyD] at this

/-- When the supplied descriptor already has a digest and a nonzero size,
ocibuild `AppendLayer` appends the layer unchanged. -/
theorem appendLayer_getLast_of_complete (img : OBImage) (now : Nat) (layer : OBLayer)
    (hdg : layer.descriptor.digest ≠ Digest.emptyD) (hsz : layer.descriptor.size ≠ 0) :
    (img.appendLayer now layer).layers.getLast? = some layer := by
  unfold OBImage.appendLayer
  dsimp only
  rw [List.getLast?_concat, if_neg hdg, if_neg hsz]

/-- C3: a layer produced by `tarlayer.Builder.Finish` satisfies: gunzip of
the blob recovers the tar byte stream whose SHA-256 is the diff ID; the
SHA-256 of the raw compressed bytes is the descriptor digest;
`Size` equals the compressed buffer length; the media type is the OCI gzip
layer type; and `Compressed` returns the same buffer on every invocation.
The layer appended by ocibuild `LayerBuilder.Close` satisfies the same
properties in its descriptor. -/
theorem C3_layer_dual_digest (tb : Builder) (img : OBImage) (now : Nat)
    (htb : tb.err = none) :
    (∀ L, TLBuilder.finish { tb := tb } = Except.ok L →
      L.uncompressed = some (tarStreamBytes (tb.close).1) ∧
      L.diffID = { algorithm := "sha256".data,
                   encoded := sha256Hex (tarStreamBytes (tb.close).1) } ∧
      digestFromBytes L.blob = L.digest ∧
      L.size = L.blob.length ∧
      L.mediaType = mtImageLayerGzip ∧
      L.compressed = L.blob) ∧
    (∀ img' l, LayerBuilder.close { tb := tb, img := img } now = Except.ok img' →
      img'.layers.getLast? = some l →
      gzipUncompress l.blob = some (tarStreamBytes (tb.close).1) ∧
      l.diffID = { algorithm := "sha256".data,
                   encoded := sha256Hex (tarStreamBytes (tb.close).1) } ∧
      digestFromBytes l.blob = l.descriptor.digest ∧
      l.descriptor.size = l.blob.length ∧
      l.descriptor.mediaType = mtImageLayerGzip) := by
  obtain ⟨mt, out, es, fw, berr⟩ := tb
  simp only at htb
  subst htb
  constructor
  · intro L hL
    unfold TLBuilder.finish Builder.close at hL
    simp only [Except.ok.injEq] at hL
    subst hL
    exact ⟨rfl, rfl, rfl, rfl, rfl, rfl⟩
  · intro img' l himg hl
    unfold LayerBuilder.close Builder.close at himg
    simp only [Except.ok.injEq] at himg
    subst himg
    rw [appendLayer_getLast_of_complete _ _ _ (sha256Digest_ne_empty _)
      (by simp [gzipCompress])] at hl
    simp only [Option.some.injEq] at hl
    subst hl
    exact ⟨rfl, rfl, rfl, rfl, rfl⟩

/-- Witness for C3: the finished layer of a fresh (empty) layer builder. -/
theorem C3_layer_dual_digest_witness :
    TLayer.uncompressed
        { blob := gzipCompress (tarStreamBytes ((newBuilder 0).close).1),
          digest := { algorithm := "sha256".data,
                      encoded := sha256Hex (gzipCompress
                        (tarStreamBytes ((newBuilder 0).close).1)) },
          diffID := { algorithm := "sha256".data,
                      encoded := sha256Hex (tarStreamBytes ((newBuilder 0).close).1) } } =
      some (tarStreamBytes ((newBuilder 0).close).1) :=
  ((C3_layer_dual_digest (newBuilder 0) {} 0 rfl).1 _ rfl).1

/-! ### The archive reader (`internal/ociarchive/load.go`, the revision cited
by the claims: `LoadArchive` producing an `image.Image`, lines 27-166) -/

/-- The error kinds surfaced by `LoadArchive`.  The Go code wraps them in
formatted messages; only the kind (and the offending name or digest) is
modeled. -/
inductive LoadErr
  | invalidName (name : Str)
  | digestMismatch (name : Str)
  | jsonError
  | invalidLayout
  | missingIndex
  | manifestCount
  | unsupportedManifestMT
  | unsupportedConfigMT
  | blobNotFound (d : Digest)
  | diffIDCount
deriving DecidableEq

/-- `loadedLayout` (src/internal/ociarchive/load.go lines 103-107).  The blob
map is an association list; `addBlob` prepends, so the head is the most
recent store (Go map overwrite, last store wins). -/
structure LoadedLayout where
  layout : Option Layout := none
  index : Option OCIIndex := none
  blobs : List (Digest × FileData) := []
deriving DecidableEq

/-- Go map lookup in the blob map (first, i.e. most recent, binding wins). -/
def lookupBlob : List (Digest × FileData) → Digest → Option FileData
  | [], _ => none
  | (d, c) :: rest, q => if d = q then some c else lookupBlob rest q

/-- Embedding of `loadedLayout.addBlob` (src/internal/ociarchive/load.go
lines 144-166): derive the candidate digest from the last two path elements,
validate it, verify the streamed content against it, and store the content
under the digest. -/
def addBlob (ll : LoadedLayout) (name : Str) (content : FileData) :
    Except LoadErr LoadedLayout :=
  if ¬ digestValid { algorithm := pathBase (pathDir name), encoded := pathBase name }
  then .error (.invalidName name)
  else if algHex (pathBase (pathDir name)) (encodeFD content) = some (pathBase name)
  then .ok { ll with
    blobs := ({ algorithm := pathBase (pathDir name), encoded := pathBase name },
      content) :: ll.blobs }
  else .error (.digestMismatch name)

/-- Embedding of `loadedLayout.populateFromTar` (src/internal/ociarchive/
load.go lines 117-142): regular files under "blobs/" are verified and
stored; "index.json" and the `oci-layout` file are decoded; anything else is
ignored. -/
def populateFromTar (ll : LoadedLayout) : List Entry → Except LoadErr LoadedLayout
  | [] => .ok ll
  | e :: rest =>
    match
      (if "blobs/".data.isPrefixOf e.name ∧ e.etype = EntryType.reg then
        addBlob ll e.name e.content
      else if e.name = "index.json".data then
        match e.content with
        | .indexDoc i => .ok { ll with index := some i }
        | _ => .error .jsonError
      else if e.name = ociLayoutFileName then
        match e.content with
        | .layoutDoc l => .ok { ll with layout := some l }
        | _ => .error .jsonError
      else .ok ll) with
    | .error err => .error err
    | .ok ll' => populateFromTar ll' rest

/-- Embedding of `loadedLayout.extractJSON` at manifest type
(src/internal/ociarchive/load.go lines 109-115). -/
def extractManifest (ll : LoadedLayout) (d : Digest) : Except LoadErr Manifest :=
  match lookupBlob ll.blobs d with
  | none => .error (.blobNotFound d)
  | some (.manifestDoc m) => .ok m
  | some _ => .error .jsonError

/-- Embedding of `loadedLayout.extractJSON` at image-config type. -/
def extractConfig (ll : LoadedLayout) (d : Digest) : Except LoadErr ImageConfig :=
  match lookupBlob ll.blobs d with
  | none => .error (.blobNotFound d)
  | some (.configDoc c) => .ok c
  | some _ => .error .jsonError

/-- The layer loop of `LoadArchive` (src/internal/ociarchive/load.go lines
82-98), over descriptor/diff-ID pairs (the caller checks the lengths agree
beforehand). -/
def buildLayers (ll : LoadedLayout) :
    List (Descriptor × Digest) → Except LoadErr (List ImgLayer)
  | [] => .ok []
  | (ld, did) :: rest =>
    match lookupBlob ll.blobs ld.digest with
    | none => .error (.blobNotFound ld.digest)
    | some blobFD =>
      match buildLayers ll rest with
      | .error e => .error e
      | .ok ls =>
        .ok ({ descriptor := ld, diffID := did, blob := encodeFD blobFD } :: ls)

/-- Embedding of `LoadArchive` (src/internal/ociarchive/load.go lines
27-101): populate the layout from the tar entries, require a layout file
with a version and an index with exactly one image-manifest descriptor,
extract and check the manifest and config, and build the layers. -/
def LoadArchive (archive : List Entry) : Except LoadErr Image :=
  match populateFromTar {} archive with
  | .error e => .error e
  | .ok ll =>
    match ll.layout with
    | none => .error .invalidLayout
    | some lay =>
      if lay.version = [] then .error .invalidLayout
      else
        match ll.index with
        | none => .error .missingIndex
        | some idx =>
          match idx.manifests with
          | [m0] =>
            if m0.mediaType ≠ mtImageManifest then .error .unsupportedManifestMT
            else
              match extractManifest ll m0.digest with
              | .error e => .error e
              | .ok manifest =>
                if manifest.config.mediaType ≠ mtImageConfig then
                  .error .unsupportedConfigMT
                else
                  match extractConfig ll manifest.config.digest with
                  | .error e => .error e
                  | .ok config =>
                    if config.diffIDs.length ≠ manifest.layers.length then
                      .error .diffIDCount
                    else
                      match buildLayers ll (manifest.layers.zip config.diffIDs) with
                      | .error e => .error e
                      | .ok layers =>
                        .ok { layers := layers, config := config,
                              platform :=
                                (match m0.platform with
                                 | some p => p
                                 | none => { os := [], architecture := [] }),
                              annotations := manifest.annotations }
          | _ => .error .manifestCount

theorem addBlob_mismatch (ll : LoadedLayout) (name : Str) (content : FileData)
    (hvalid : digestValid { algorithm := pathBase (pathDir name), encoded := pathBase name })
    (hmis : algHex (pathBase (pathDir name)) (encodeFD content) ≠ some (pathBase name)) :
    addBlob ll name content = Except.error (LoadErr.digestMismatch name) := by
  unfold addBlob
  rw [if_neg (not_not_intro hvalid), if_neg hmis]

/-- Every blob binding holds content that hashes, under the key's algorithm,
to the key's encoded value. -/
def blobsOk (bs : List (Digest × FileData)) : Prop :=
  ∀ d c, (d, c) ∈ bs → digestValid d ∧ algHex d.algorithm (encodeFD c) = some d.encoded

theorem addBlob_inv (ll : LoadedLayout) (name : Str) (content : FileData)
    (ll' : LoadedLayout) (hinv : blobsOk ll.blobs)
    (h : addBlob ll name content = Except.ok ll') : blobsOk ll'.blobs := by
  unfold addBlob at h
  by_cases hv : digestValid { algorithm := pathBase (pathDir name), encoded := pathBase name }
  · rw [if_neg (not_not_intro hv)] at h
    by_cases hm : algHex (pathBase (pathDir name)) (encodeFD content) = some (pathBase name)
    · rw [if_pos hm] at h
      simp only [Except.ok.injEq] at h
      subst h
      intro d c hdc
      rcases List.mem_cons.mp hdc with heq | hdc
      · cases heq
        exact ⟨hv, hm⟩
      · exact hinv d c hdc
    · rw [if_neg hm] at h
      cases h
  · rw [if_pos hv] at h
    cases h

theorem populate_inv (archive : List Entry) : ∀ (ll ll' : LoadedLayout),
    blobsOk ll.blobs → populateFromTar ll archive = Except.ok ll' →
    blobsOk ll'.blobs := by
  induction archive with
  | nil =>
    intro ll ll' hinv h
    unfold populateFromTar at h
    simp only [Except.ok.injEq] at h
    subst h
    exact hinv
  | cons e rest ih =>
    intro ll ll' hinv h
    unfold populateFromTar at h
    by_cases hc1 : "blobs/".data.isPrefixOf e.name ∧ e.etype = EntryType.reg
    · rw [if_pos hc1] at h
      cases hab : addBlob ll e.name e.content with
      | error err => rw [hab] at h; cases h
      | ok ll₂ =>
        rw [hab] at h
        exact ih ll₂ ll' (addBlob_inv ll e.name e.content ll₂ hinv hab) h
    · rw [if_neg hc1] at h
      by_cases hc2 : e.name = "index.json".data
      · rw [if_pos hc2] at h
        cases hct : e.content with
        | indexDoc i =>
          rw [hct] at h
          dsimp only at h
          exact ih { ll with index := some i } ll' hinv h
        | raw bs => rw [hct] at h; cases h
        | configDoc c => rw [hct] at h; cases h
        | manifestDoc m => rw [hct] at h; cases h
        | layoutDoc l => rw [hct] at h; cases h
      · rw [if_neg hc2] at h
        by_cases hc3 : e.name = ociLayoutFileName
        · rw [if_pos hc3] at h
          cases hct : e.content with
          | layoutDoc l =>
            rw [hct] at h
            dsimp only at h
            exact ih { ll with layout := some l } ll' hinv h
          | raw bs => rw [hct] at h; cases h
          | configDoc c => rw [hct] at h; cases h
          | manifestDoc m => rw [hct] at h; cases h
          | indexDoc i => rw [hct] at h; cases h
        · rw [if_neg hc3] at h
          exact ih ll ll' hinv h

theorem populate_err_of_mismatch (archive : List Entry) : ∀ (ll : LoadedLayout)
    (e : Entry), e ∈ archive →
    ("blobs/".data.isPrefixOf e.name ∧ e.etype = EntryType.reg) →
    digestValid { algorithm := pathBase (pathDir e.name), encoded := pathBase e.name } →
    algHex (pathBase (pathDir e.name)) (encodeFD e.content) ≠ some (pathBase e.name) →
    ∀ ll', populateFromTar ll archive ≠ Except.ok ll' := by
  induction archive with
  | nil =>
    intro ll e he
    simp at he
  | cons e₀ rest ih =>
    intro ll e he hcond hvalid hmis ll' h
    unfold populateFromTar at h
    rcases List.mem_cons.mp he with rfl | he
    · rw [if_pos hcond, addBlob_mismatch ll e.name e.content hvalid hmis] at h
      cases h
    · revert h
      by_cases hc1 : "blobs/".data.isPrefixOf e₀.name ∧ e₀.etype = EntryType.reg
      · rw [if_pos hc1]
        cases hab : addBlob ll e₀.name e₀.content with
        | error err => intro h; cases h
        | ok ll₂ => exact ih ll₂ e he hcond hvalid hmis ll'
      · rw [if_neg hc1]
        by_cases hc2 : e₀.name = "index.json".data
        · rw [if_pos hc2]
          cases e₀.content with
          | indexDoc i => exact ih _ e he hcond hvalid hmis ll'
          | raw bs => intro h; cases h
          | configDoc c => intro h; cases h
          | manifestDoc m => intro h; cases h
          | layoutDoc l => intro h; cases h
        · rw [if_neg hc2]
          by_cases hc3 : e₀.name = ociLayoutFileName
          · rw [if_pos hc3]
            cases e₀.content with
            | layoutDoc l => exact ih _ e he hcond hvalid hmis ll'
            | raw bs => intro h; cases h
            | configDoc c => intro h; cases h
            | manifestDoc m => intro h; cases h
            | indexDoc i => intro h; cases h
          · rw [if_neg hc3]
            exact ih ll e he hcond hvalid hmis ll'

/-- C4: if loading succeeds, every blob stored in the loaded layout's blob
map is keyed by a valid digest that its own bytes hash to; and for every
regular tar entry under "blobs/" whose name parses to a valid digest but
whose content does not hash to it, `addBlob` fails with the digest-mismatch
error and the whole `LoadArchive` fails. -/
theorem C4_blob_digest_verified (archive : List Entry) :
    (∀ ll', populateFromTar {} archive = Except.ok ll' →
      ∀ d c, (d, c) ∈ ll'.blobs →
        digestValid d ∧ algHex d.algorithm (encodeFD c) = some d.encoded) ∧
    (∀ e ∈ archive, ("blobs/".data.isPrefixOf e.name ∧ e.etype = EntryType.reg) →
      digestValid { algorithm := pathBase (pathDir e.name), encoded := pathBase e.name } →
      algHex (pathBase (pathDir e.name)) (encodeFD e.content) ≠ some (pathBase e.name) →
      (∀ ll, addBlob ll e.name e.content =
        Except.error (LoadErr.digestMismatch e.name)) ∧
      (∀ img, LoadArchive archive ≠ Except.ok img)) := by
  constructor
  · intro ll' hpop
    exact populate_inv archive {} ll' (fun d c hdc => absurd hdc (by simp)) hpop
  · intro e he hcond hvalid hmis
    constructor
    · intro ll
      exact addBlob_mismatch ll e.name e.content hvalid hmis
    · intro img hload
      unfold LoadArchive at hload
      cases hpop : populateFromTar {} archive with
      | error err => rw [hpop] at hload; cases hload
      | ok ll' =>
        exact populate_err_of_mismatch archive {} e he hcond hvalid hmis ll' hpop

/-- A concrete blob entry whose name carries the all-"a" sha256 digest but
whose content hashes differently (used by the C4 witness). -/
def mismatchedBlobEntry : Entry where
  segs := ["blobs/sha256/".data ++
    "aaaaaaaaaaaaaaaaaaaaaaaaaaaaaaaaaaaaaaaaaaaaaaaaaaaaaaaaaaaaaaaa".data]
  etype := EntryType.reg
  mode := 0
  modTime := 0
  size := 1
  content := FileData.raw [1]

/-- Witness for C4: the mismatched blob entry is rejected with the
digest-mismatch error. -/
theorem C4_blob_digest_verified_witness :
    addBlob {} mismatchedBlobEntry.name mismatchedBlobEntry.content =
      Except.error (LoadErr.digestMismatch mismatchedBlobEntry.name) :=
  ((C4_blob_digest_verified [mismatchedBlobEntry]).2
    mismatchedBlobEntry (by simp) (by decide) (by decide) (by decide)).1 {}

/-! ### Parsing blob paths -/

theorem joinSlash_single (a : Str) : joinSlash [a] = a := by
  simp [joinSlash, List.intercalate]

theorem joinSlash_cons (a : Str) (l : List Str) (h : l ≠ []) :
    joinSlash (a :: l) = a ++ '/' :: joinSlash l := by
  cases l with
  | nil => exact absurd rfl h
  | cons b t =>
    unfold joinSlash List.intercalate
    rw [List.intersperse_cons_cons]
    simp

theorem takeWhile_append_stop (p : Char → Bool) (xs ys : Str) (y : Char)
    (hxs : ∀ x ∈ xs, p x = true) (hy : p y = false) :
    (xs ++ y :: ys).takeWhile p = xs := by
  induction xs with
  | nil => simp [List.takeWhile_cons, hy]
  | cons a t ih =>
    rw [List.cons_append, List.takeWhile_cons, hxs a (by simp)]
    rw [ih (fun x hx => hxs x (by simp [hx]))]
    simp

theorem pathBase_append_last (A c : Str) (hc : c ≠ []) (hcs : '/' ∉ c) :
    pathBase (A ++ '/' :: c) = c := by
  obtain ⟨ch, ct, hcrev⟩ : ∃ ch ct, c.reverse = ch :: ct := by
    cases hcr : c.reverse with
    | nil =>
      exfalso
      apply hc
      have := congrArg List.reverse hcr
      simpa using this
    | cons x xs => exact ⟨x, xs, rfl⟩
  have hmemrev : ∀ x ∈ ch :: ct, x ∈ c := by
    intro x hx
    rw [← hcrev] at hx
    exact List.mem_reverse.mp hx
  have hch : (ch == '/') = false := by
    simp only [beq_eq_false_iff_ne, ne_eq]
    intro h
    exact hcs (h ▸ hmemrev ch (by simp))
  have hrev : (A ++ '/' :: c).reverse = ch :: (ct ++ '/' :: A.reverse) := by
    rw [List.reverse_append, List.reverse_cons, hcrev]
    simp
  unfold pathBase
  rw [if_neg (by simp : ¬ A ++ '/' :: c = [])]
  rw [hrev]
  rw [List.dropWhile_cons]
  rw [hch]
  simp only [Bool.false_eq_true, if_false, List.reverse_reverse]
  rw [if_neg (by simp : ¬ (ch :: (ct ++ '/' :: A.reverse)).reverse = [])]
  have htake : (ch :: (ct ++ '/' :: A.reverse)).takeWhile (fun x => x != '/') =
      ch :: ct := by
    rw [List.takeWhile_cons]
    have : (ch != '/') = true := by simp [bne]; simp at hch; exact hch
    rw [this]
    simp only [if_true]
    rw [takeWhile_append_stop _ ct A.reverse '/'
      (fun x hx => by
        simp only [bne_iff_ne, ne_eq]
        intro hxe
        exact hcs (hxe ▸ hmemrev x (by simp [hx])))
      (by simp)]
  rw [htake, ← hcrev, List.reverse_reverse]

theorem pathDir_append_last (A c : Str) (hc : c ≠ []) (hcs : '/' ∉ c) :
    pathDir (A ++ '/' :: c) = pathClean (A ++ ['/']) := by
  obtain ⟨ch, ct, hcrev⟩ : ∃ ch ct, c.reverse = ch :: ct := by
    cases hcr : c.reverse with
    | nil =>
      exfalso
      apply hc
      have := congrArg List.reverse hcr
      simpa using this
    | cons x xs => exact ⟨x, xs, rfl⟩
  have hmemrev : ∀ x ∈ ch :: ct, x ∈ c := by
    intro x hx
    rw [← hcrev] at hx
    exact List.mem_reverse.mp hx
  have hrev : (A ++ '/' :: c).reverse = (ch :: ct) ++ '/' :: A.reverse := by
    rw [List.reverse_append, List.reverse_cons, hcrev]
    simp
  unfold pathDir
  rw [hrev]
  have hdrop : ((ch :: ct) ++ '/' :: A.reverse).dropWhile (fun x => x != '/') =
      '/' :: A.reverse := by
    have hstep : ∀ (xs : Str), (∀ x ∈ xs, x ≠ '/') →
        (xs ++ '/' :: A.reverse).dropWhile (fun x => x != '/') = '/' :: A.reverse := by
      intro xs hxs
      induction xs with
      | nil => simp [List.dropWhile_cons]
      | cons a t ih =>
        rw [List.cons_append, List.dropWhile_cons]
        have : (a != '/') = true := by
          simp only [bne_iff_ne, ne_eq]
          exact hxs a (by simp)
        rw [this]
        simp only [if_true]
        exact ih (fun x hx => hxs x (by simp [hx]))
    exact hstep (ch :: ct) (fun x hx => fun hxe => hcs (hxe ▸ hmemrev x hx))
  rw [hdrop]
  congr 1
  simp

theorem joinSlash_append_empty (l : List Str) (h : l ≠ []) :
    joinSlash (l ++ [[]]) = joinSlash l ++ ['/'] := by
  induction l with
  | nil => exact absurd rfl h
  | cons b t ih =>
    by_cases ht : t = []
    · subst ht
      simp [joinSlash_cons, joinSlash_single]
    · rw [List.cons_append, joinSlash_cons b (t ++ [[]]) (by simp),
        joinSlash_cons b t ht, ih ht]
      simp

theorem pathClean_joinSlash_slash (segs : List Str) (hne : segs ≠ [])
    (h : ∀ s ∈ segs, plainSeg s) :
    pathClean (joinSlash segs ++ ['/']) = joinSlash segs := by
  obtain ⟨a, rest, rfl⟩ : ∃ a rest, segs = a :: rest := by
    cases segs with
    | nil => exact absurd rfl hne
    | cons a rest => exact ⟨a, rest, rfl⟩
  obtain ⟨ha, haslash, -, -⟩ := h a (by simp)
  obtain ⟨ch, ct, hach⟩ : ∃ ch ct, a = ch :: ct := by
    cases a with
    | nil => exact absurd rfl ha
    | cons x xs => exact ⟨x, xs, rfl⟩
  have hch : ch ≠ '/' := by
    intro hcon
    exact haslash (by rw [hach, hcon]; simp)
  have hhead : (joinSlash (a :: rest) ++ ['/']).head? = some ch := by
    by_cases hr : rest = []
    · subst hr
      rw [joinSlash_single, hach]
      simp
    · rw [joinSlash_cons a rest hr, hach]
      simp
  have hroot : isRooted (joinSlash (a :: rest) ++ ['/']) = false := by
    unfold isRooted
    rw [hhead]
    simp [hch]
  have hjoin : joinSlash (a :: rest) ++ ['/'] = joinSlash ((a :: rest) ++ [[]]) := by
    rw [joinSlash_append_empty (a :: rest) (by simp)]
  unfold pathClean
  rw [hroot]
  simp only [Bool.false_eq_true, if_false]
  have hsplit : splitSlash (joinSlash (a :: rest) ++ ['/']) = (a :: rest) ++ [[]] := by
    rw [hjoin]
    refine splitSlash_joinSlash _ (by simp) ?_
    intro s hs
    rcases List.mem_append.mp hs with hs | hs
    · exact (h s hs).2.1
    · simp at hs
      simp [hs]
  unfold cleanSegs
  rw [hsplit]
  have hfil : ((a :: rest) ++ [[]]).filter (fun s => !s.isEmpty) = a :: rest := by
    rw [List.filter_append]
    have h1 : (a :: rest).filter (fun s => !s.isEmpty) = a :: rest := by
      apply List.filter_eq_self.mpr
      intro s hs
      have := (h s hs).1
      simp [List.isEmpty_iff, this]
    have h2 : ([[]] : List Str).filter (fun s => !s.isEmpty) = [] := by decide
    rw [h1, h2, List.append_nil]
  rw [hfil]
  have hfold : List.foldl (cleanStep false) (cleanStep false [] a) rest = a :: rest := by
    have hall := foldl_cleanStep_plain false (a :: rest)
      (fun s hs => ⟨(h s hs).2.2.1, (h s hs).2.2.2⟩) []
    rw [List.foldl_cons] at hall
    simpa using hall
  rw [List.foldl_cons, hfold]

/-- Parsing the blob path `blobs/<alg>/<enc>` back into its components, as
`addBlob` does with Go `path.Base` and `path.Dir`. -/
theorem parse_blob_path (alg enc : Str) (halg : plainSeg alg) (henc : plainSeg enc) :
    pathBase (joinSlash ["blobs".data, alg, enc]) = enc ∧
    pathBase (pathDir (joinSlash ["blobs".data, alg, enc])) = alg := by
  have h3 : joinSlash ["blobs".data, alg, enc] =
      ("blobs".data ++ '/' :: alg) ++ '/' :: enc := by
    rw [joinSlash_cons _ _ (by simp), joinSlash_cons _ _ (by simp), joinSlash_single]
    simp
  have hplain2 : ∀ s ∈ ["blobs".data, alg], plainSeg s := by
    intro s hs
    rcases List.mem_cons.mp hs with rfl | hs
    · decide
    · simp at hs
      rw [hs]
      exact halg
  have h2 : joinSlash ["blobs".data, alg] = "blobs".data ++ '/' :: alg := by
    rw [joinSlash_cons _ _ (by simp), joinSlash_single]
  constructor
  · rw [h3]
    exact pathBase_append_last _ enc henc.1 henc.2.1
  · rw [h3, pathDir_append_last _ enc henc.1 henc.2.1, ← h2,
      pathClean_joinSlash_slash _ (by simp) hplain2, h2]
    exact pathBase_append_last _ alg halg.1 halg.2.1

/-! ### The archive writer (`internal/ociarchive/write.go`, the revision
cited by the claims: `WriteImage` over an `image.Image`, lines 16-110) -/

/-- The blob path "blobs/" + algorithm + "/" + encoded built by the writer
(write.go line 69). -/
def blobPath (d : Digest) : Str := "blobs/".data ++ d.algorithm ++ '/' :: d.encoded

/-- Embedding of `imageWriter.addBlob` (write.go lines 67-75): the layer blob
is added as a mode-644 file whose declared size is the descriptor size (the
writer does not recompute it) and whose modification time is the zero
value. -/
def iwAddBlob (tb : Builder) (desc : Descriptor) (blob : List Nat) :
    Builder × Option TarError :=
  tb.add (blobPath desc.digest)
    { content := .raw blob, size := desc.size, mode := 0o644, modTime := 0 }

/-- Embedding of `imageWriter.addJSONBlob` (write.go lines 82-91, with
`addBlobContent`, lines 77-80, inlined; the `AddContent` error is discarded
exactly as in the source): marshal the document, derive its descriptor from
the bytes, and add the blob at the digest path. -/
def addJSONBlob (tb : Builder) (mediaType : Str) (v : FileData) :
    Builder × Descriptor :=
  ((tb.addContent (blobPath (digestFromBytes (encodeFD v))) v).1,
    { mediaType := mediaType, digest := digestFromBytes (encodeFD v),
      size := (encodeFD v).length })

/-- The layer loop of `imageWriter.WriteImage` (write.go lines 32-41),
returning early on the first failure. -/
def writeLayers (tb : Builder) : List ImgLayer → Builder × Option TarError
  | [] => (tb, none)
  | l :: rest =>
    match iwAddBlob tb l.descriptor l.blob with
    | (tb', some e) => (tb', some e)
    | (tb', none) => writeLayers tb' rest

/-- Embedding of `WriteImage` / `imageWriter.WriteImage` (write.go lines
16-65): write the layer blobs (failing early), then the config blob, the
manifest blob (whose index descriptor carries the image platform),
"index.json" and "oci-layout" (their add errors surface at Close), and close
the builder; on success the value is the written entry stream. -/
def WriteImage (img : Image) (modTime : Nat) : Except TarError (List Entry) :=
  match writeLayers (newBuilder modTime) img.layers with
  | (_, some e) => .error e
  | (tb₁, none) =>
    match addJSONBlob tb₁ mtImageConfig (.configDoc img.config) with
    | (tb₂, configDesc) =>
      match addJSONBlob tb₂ mtImageManifest (.manifestDoc
          { schemaVersion := 2, config := configDesc,
            layers := img.layers.map ImgLayer.descriptor,
            annotations := img.annotations }) with
      | (tb₃, manifestDesc) =>
        match ((((tb₃.addContent "index.json".data (.indexDoc
            { schemaVersion := 2,
              manifests := [{ manifestDesc with
                platform := some img.platform }] })).1).addContent
            ociLayoutFileName (.layoutDoc { version := ociLayoutVersion })).1).close with
        | (_, some e) => .error e
        | (tb₆, none) => .ok tb₆.output

/-! ### Computation lemmas for the writer's builder states -/

theorem ensure_blob3_fresh (b : Builder) (alg enc : Str)
    (hp2 : findType b.entries ["blobs".data, alg] = none)
    (hp1 : findType b.entries ["blobs".data] = none) :
    ensureParentDirectory b ["blobs".data, alg, enc] =
      ({ b with
          entries := (["blobs".data, alg], EntryType.dir) ::
            (["blobs".data], EntryType.dir) :: b.entries,
          output := b.output ++
            [dirEntry ["blobs".data] b.defaultModTime,
             dirEntry ["blobs".data, alg] b.defaultModTime] }, none) := by
  show ensureParentDirectoryFuel 3 _ _ = _
  rw [ensureParentDirectoryFuel]
  simp only [List.dropLast, reduceIte, hp2, hp1, ensureParentDirectoryFuel,
    List.append_assoc, List.cons_append, List.nil_append]
  simp

theorem ensure_blob3_existing (b : Builder) (alg enc : Str)
    (hp2 : findType b.entries ["blobs".data, alg] = some EntryType.dir) :
    ensureParentDirectory b ["blobs".data, alg, enc] = (b, none) := by
  show ensureParentDirectoryFuel 3 _ _ = _
  rw [ensureParentDirectoryFuel]
  simp only [List.dropLast, reduceIte, hp2]
  simp

theorem ensure_single (b : Builder) (s : Str) :
    ensureParentDirectory b [s] = (b, none) := by
  show ensureParentDirectoryFuel 1 _ _ = _
  rw [ensureParentDirectoryFuel]
  simp [List.dropLast]

/-- `Builder.add` of a fresh three-element blob path into a builder that has
neither of the two parent directories: both are synthesized ahead of the
file entry. -/
theorem add_blob3_fresh (b : Builder) (alg enc : Str) (f : TFile)
    (hberr : b.err = none) (halg : plainSeg alg) (henc : plainSeg enc)
    (hreg : f.isDir = false) (hsz : (encodeFD f.content).length = f.size)
    (habs : findType b.entries ["blobs".data, alg, enc] = none)
    (hp2 : findType b.entries ["blobs".data, alg] = none)
    (hp1 : findType b.entries ["blobs".data] = none) :
    b.add (joinSlash ["blobs".data, alg, enc]) f =
      ({ b with
          entries := (["blobs".data, alg], EntryType.dir) ::
            (["blobs".data], EntryType.dir) ::
            (["blobs".data, alg, enc], EntryType.reg) :: b.entries,
          output := b.output ++
            [dirEntry ["blobs".data] b.defaultModTime,
             dirEntry ["blobs".data, alg] b.defaultModTime,
             { segs := ["blobs".data, alg, enc], etype := EntryType.reg,
               mode := f.mode, modTime := f.modTime, size := f.size,
               content := f.content }] }, none) := by
  have hplain : ∀ s ∈ ["blobs".data, alg, enc], plainSeg s := by
    intro s hs
    rcases List.mem_cons.mp hs with rfl | hs
    · decide
    · rcases List.mem_cons.mp hs with rfl | hs
      · exact halg
      · simp at hs
        rw [hs]
        exact henc
  have hnorm : normalizePath (joinSlash ["blobs".data, alg, enc]) =
      ["blobs".data, alg, enc] :=
    normalizePath_joinSlash _ (by simp) hplain
  have hout : ¬ outsideArchive (["blobs".data, alg, enc] : List Str) := by
    intro hcon
    rcases hcon with hcon | hcon
    · simp at hcon
    · simp only [List.head?_cons, Option.some.injEq] at hcon
      exact absurd hcon (by decide)
  obtain ⟨mt, out, es, fw, berr⟩ := b
  simp only at hberr habs hp1 hp2
  subst hberr
  unfold Builder.add
  simp only [hnorm]
  rw [if_neg hout, habs]
  rw [ensure_blob3_fresh (Builder.mk mt out
    ((["blobs".data, alg, enc], EntryType.reg) :: es) fw none) alg enc
    (by rw [findType_cons, if_neg (by intro hcon; cases hcon), hp2])
    (by rw [findType_cons, if_neg (by intro hcon; cases hcon), hp1])]
  simp only [hreg, Bool.false_eq_true, if_false, hsz, if_pos rfl, reduceIte]
  simp

/-- `Builder.add` of a fresh three-element blob path when the algorithm
directory is already recorded: only the file entry is written. -/
theorem add_blob3_existing (b : Builder) (alg enc : Str) (f : TFile)
    (hberr : b.err = none) (halg : plainSeg alg) (henc : plainSeg enc)
    (hreg : f.isDir = false) (hsz : (encodeFD f.content).length = f.size)
    (habs : findType b.entries ["blobs".data, alg, enc] = none)
    (hp2 : findType b.entries ["blobs".data, alg] = some EntryType.dir) :
    b.add (joinSlash ["blobs".data, alg, enc]) f =
      ({ b with
          entries := (["blobs".data, alg, enc], EntryType.reg) :: b.entries,
          output := b.output ++
            [{ segs := ["blobs".data, alg, enc], etype := EntryType.reg,
               mode := f.mode, modTime := f.modTime, size := f.size,
               content := f.content }] }, none) := by
  have hplain : ∀ s ∈ ["blobs".data, alg, enc], plainSeg s := by
    intro s hs
    rcases List.mem_cons.mp hs with rfl | hs
    · decide
    · rcases List.mem_cons.mp hs with rfl | hs
      · exact halg
      · simp at hs
        rw [hs]
        exact henc
  have hnorm : normalizePath (joinSlash ["blobs".data, alg, enc]) =
      ["blobs".data, alg, enc] :=
    normalizePath_joinSlash _ (by simp) hplain
  have hout : ¬ outsideArchive (["blobs".data, alg, enc] : List Str) := by
    intro hcon
    rcases hcon with hcon | hcon
    · simp at hcon
    · simp only [List.head?_cons, Option.some.injEq] at hcon
      exact absurd hcon (by decide)
  obtain ⟨mt, out, es, fw, berr⟩ := b
  simp only at hberr habs hp2
  subst hberr
  unfold Builder.add
  simp only [hnorm]
  rw [if_neg hout, habs]
  rw [ensure_blob3_existing (Builder.mk mt out
    ((["blobs".data, alg, enc], EntryType.reg) :: es) fw none) alg enc
    (by rw [findType_cons, if_neg (by intro hcon; cases hcon), hp2])]
  simp only [hreg, Bool.false_eq_true, if_false, hsz, if_pos rfl, reduceIte]

/-- `Builder.add` (via `AddContent`) of a fresh single-element path. -/
theorem add_single (b : Builder) (p s : Str) (f : TFile)
    (hberr : b.err = none) (hs : plainSeg s)
    (hnorm : normalizePath p = [s])
    (hreg : f.isDir = false) (hsz : (encodeFD f.content).length = f.size)
    (habs : findType b.entries [s] = none) :
    b.add p f =
      ({ b with
          entries := ([s], EntryType.reg) :: b.entries,
          output := b.output ++
            [{ segs := [s], etype := EntryType.reg, mode := f.mode,
               modTime := f.modTime, size := f.size, content := f.content }] },
        none) := by
  have hout : ¬ outsideArchive ([s] : List Str) := by
    intro hcon
    rcases hcon with hcon | hcon
    · simp at hcon
    · simp only [List.head?_cons, Option.some.injEq] at hcon
      exact hs.2.2.2 hcon
  obtain ⟨mt, out, es, fw, berr⟩ := b
  simp only at hberr habs
  subst hberr
  unfold Builder.add
  simp only [hnorm]
  rw [if_neg hout, habs]
  rw [ensure_single (Builder.mk mt out (([s], EntryType.reg) :: es) fw none) s]
  simp only [hreg, Bool.false_eq_true, if_false, hsz, if_pos rfl, reduceIte]

/-- `Builder.add` of an already-recorded path fails with the duplicate-entry
error, recording the error and writing nothing. -/
theorem add_dup (b : Builder) (p : Str) (f : TFile) (ty : EntryType)
    (hberr : b.err = none)
    (hfound : findType b.entries (normalizePath p) = some ty)
    (hout : ¬ outsideArchive (normalizePath p)) :
    b.add p f =
      ({ b with err := some (TarError.addError (normalizePath p)
          AddCause.duplicateEntry) },
        some (TarError.addError (normalizePath p) AddCause.duplicateEntry)) := by
  obtain ⟨mt, out, es, fw, berr⟩ := b
  simp only at hberr hfound
  subst hberr
  unfold Builder.add
  rw [if_neg hout, hfound]

/-- The path elements of a sha256 blob path. -/
def blobSegs (enc : Str) : List Str := ["blobs".data, "sha256".data, enc]

/-- The tar entry the writer produces for one layer blob. -/
def blobEntryOf (l : ImgLayer) : Entry where
  segs := blobSegs (sha256Hex l.blob)
  etype := EntryType.reg
  mode := 0o644
  modTime := 0
  size := l.descriptor.size
  content := .raw l.blob

theorem blobPath_eq (d : Digest) :
    blobPath d = joinSlash ["blobs".data, d.algorithm, d.encoded] := by
  rw [joinSlash_cons _ _ (by simp), joinSlash_cons _ _ (by simp), joinSlash_single]
  show "blobs/".data ++ d.algorithm ++ '/' :: d.encoded = _
  simp

theorem add_err (b : Builder) (p : Str) (f : TFile) (e : TarError)
    (h : b.err = some e) : b.add p f = (b, some e) := by
  obtain ⟨mt, out, es, fw, berr⟩ := b
  simp only at h
  subst h
  rfl

theorem close_err (b : Builder) (e : TarError) (h : b.err = some e) :
    b.close = (b, some e) := by
  obtain ⟨mt, out, es, fw, berr⟩ := b
  simp only at h
  subst h
  rfl

theorem blobSegs_ne_two (enc : Str) :
    blobSegs enc ≠ ["blobs".data, "sha256".data] := by
  intro h
  have := congrArg List.length h
  simp [blobSegs] at this

/-- Characterization of the layer loop from a builder that already has the
"blobs/sha256" directory: on success the loop appends exactly one file entry
per layer, records their paths, and all layer digests are fresh and
pairwise distinct. -/
theorem writeLayers_go (ls : List ImgLayer) : ∀ b b' : Builder,
    b.err = none →
    findType b.entries ["blobs".data, "sha256".data] = some EntryType.dir →
    (∀ l ∈ ls, l.descriptor.digest = digestFromBytes l.blob ∧
      l.descriptor.size = l.blob.length) →
    writeLayers b ls = (b', none) →
    b'.err = none ∧ b'.defaultModTime = b.defaultModTime ∧
    b'.footerWritten = b.footerWritten ∧
    b'.entries = (ls.reverse.map (fun l => (blobSegs (sha256Hex l.blob),
      EntryType.reg))) ++ b.entries ∧
    b'.output = b.output ++ ls.map blobEntryOf ∧
    (∀ l ∈ ls, findType b.entries (blobSegs (sha256Hex l.blob)) = none) ∧
    (ls.map (fun l => sha256Hex l.blob)).Nodup := by
  induction ls with
  | nil =>
    intro b b' hberr hp2 hblob h
    unfold writeLayers at h
    simp only [Prod.mk.injEq] at h
    rw [← h.1]
    exact ⟨hberr, rfl, rfl, by simp, by simp, by simp, by simp⟩
  | cons l rest ih =>
    intro b b' hberr hp2 hblob h
    have hl := hblob l (by simp)
    unfold writeLayers iwAddBlob at h
    rw [hl.1, blobPath_eq] at h
    dsimp only [digestFromBytes] at h
    cases hft : findType b.entries (blobSegs (sha256Hex l.blob)) with
    | some ty =>
      exfalso
      have hnorm : normalizePath (joinSlash ["blobs".data, "sha256".data,
          sha256Hex l.blob]) = blobSegs (sha256Hex l.blob) :=
        normalizePath_joinSlash _ (by simp) (by
          intro s hs
          rcases List.mem_cons.mp hs with rfl | hs
          · decide
          · rcases List.mem_cons.mp hs with rfl | hs
            · decide
            · simp at hs
              rw [hs]
              exact plainSeg_sha256Hex l.blob)
      have hout : ¬ outsideArchive (normalizePath (joinSlash ["blobs".data,
          "sha256".data, sha256Hex l.blob])) := by
        rw [hnorm]
        intro hcon
        rcases hcon with hcon | hcon
        · simp [blobSegs] at hcon
        · simp only [blobSegs, List.head?_cons, Option.some.injEq] at hcon
          exact absurd hcon (by decide)
      rw [add_dup b _ _ ty hberr (by rw [hnorm]; exact hft) hout] at h
      simp at h
    | none =>
      rw [add_blob3_existing b ("sha256".data) (sha256Hex l.blob) _ hberr
        (by decide) (plainSeg_sha256Hex l.blob) rfl (by simp [encodeFD, hl.2]) hft hp2] at h
      simp only at h
      obtain ⟨herr', hmt', hfw', hent', hout', habs', hnd'⟩ := ih
        { defaultModTime := b.defaultModTime
          output := b.output ++ [blobEntryOf l]
          entries := (blobSegs (sha256Hex l.blob), EntryType.reg) :: b.entries
          footerWritten := b.footerWritten
          err := b.err }
        b' hberr
        (by dsimp only
            rw [findType_cons, if_neg (fun hcon =>
              blobSegs_ne_two (sha256Hex l.blob) hcon)]
            exact hp2)
        (fun l' hl' => hblob l' (by simp [hl']))
        h
      have habsRest : ∀ l' ∈ rest,
          blobSegs (sha256Hex l.blob) ≠ blobSegs (sha256Hex l'.blob) ∧
          findType b.entries (blobSegs (sha256Hex l'.blob)) = none := by
        intro l' hl'
        have := habs' l' hl'
        dsimp only at this
        rw [findType_cons] at this
        by_cases heq : blobSegs (sha256Hex l.blob) = blobSegs (sha256Hex l'.blob)
        · rw [if_pos heq] at this
          cases this
        · rw [if_neg heq] at this
          exact ⟨heq, this⟩
      refine ⟨herr', by rw [hmt'], by rw [hfw'], ?_, ?_, ?_, ?_⟩
      · rw [hent']
        simp [List.map_append]
      · rw [hout']
        simp [blobEntryOf, hl.2]
      · intro l' hl'
        rcases List.mem_cons.mp hl' with rfl | hl'
        · exact hft
        · exact (habsRest l' hl').2
      · rw [List.map_cons, List.nodup_cons]
        refine ⟨?_, hnd'⟩
        intro hmem
        obtain ⟨l', hl', heq⟩ := List.mem_map.mp hmem
        exact (habsRest l' hl').1 (by rw [heq])

theorem blobSegs_ne_single (enc x : Str) : blobSegs enc ≠ [x] := by
  intro h
  have := congrArg List.length h
  simp [blobSegs] at this

theorem blobSegs_inj {e₁ e₂ : Str} (h : blobSegs e₁ = blobSegs e₂) : e₁ = e₂ := by
  simpa [blobSegs] using h

theorem findType_append_none (xs ys : List (List Str × EntryType)) (np : List Str)
    (h : ∀ k ∈ xs.map Prod.fst, k ≠ np) : findType (xs ++ ys) np = findType ys np := by
  induction xs with
  | nil => rfl
  | cons x rest ih =>
    obtain ⟨k, ty⟩ := x
    rw [List.cons_append, findType_cons,
      if_neg (h k (by rw [List.map_cons]; exact List.mem_cons_self _ _)),
      ih (fun k' hk' => h k'
        (by rw [List.map_cons]; exact List.mem_cons_of_mem _ hk'))]

theorem findType_eq_none_iff (es : List (List Str × EntryType)) (np : List Str) :
    findType es np = none ↔ np ∉ es.map Prod.fst := by
  induction es with
  | nil => simp [findType]
  | cons x rest ih =>
    obtain ⟨k, ty⟩ := x
    rw [findType_cons, List.map_cons, List.mem_cons]
    by_cases hx : k = np
    · rw [if_pos hx]
      constructor
      · intro hcon
        cases hcon
      · intro hcon
        exact absurd (Or.inl hx.symm) hcon
    · rw [if_neg hx, ih]
      constructor
      · intro h hc
        rcases hc with hc | hc
        · exact hx hc.symm
        · exact h hc
      · intro h hc
        exact h (Or.inr hc)

theorem joinSlash_blobSegs (enc : Str) :
    joinSlash (blobSegs enc) = "blobs/".data ++ ("sha256".data ++ '/' :: enc) := by
  show joinSlash (["blobs".data, "sha256".data, enc]) = _
  rw [joinSlash_cons _ _ (by simp), joinSlash_cons _ _ (by simp), joinSlash_single]
  rfl

theorem blobs_isPrefixOf (enc : Str) :
    "blobs/".data.isPrefixOf (joinSlash (blobSegs enc)) = true := by
  rw [joinSlash_blobSegs]
  exact List.isPrefixOf_iff_prefix.mpr (List.prefix_append _ _)

theorem dirEntry_name (p : List Str) (t : Nat) :
    (dirEntry p t).name = joinSlash p ++ ['/'] := rfl

theorem blobEntryOf_name (l : ImgLayer) :
    (blobEntryOf l).name = joinSlash (blobSegs (sha256Hex l.blob)) := rfl

/-! ### Stepping the reader's populate loop over the written entries -/

theorem populate_skip (ll : LoadedLayout) (e : Entry) (rest : List Entry)
    (h1 : ¬("blobs/".data.isPrefixOf e.name ∧ e.etype = EntryType.reg))
    (h2 : e.name ≠ "index.json".data) (h3 : e.name ≠ ociLayoutFileName) :
    populateFromTar ll (e :: rest) = populateFromTar ll rest := by
  rw [populateFromTar]
  rw [if_neg h1, if_neg h2, if_neg h3]

theorem populate_blob (ll : LoadedLayout) (e : Entry) (rest : List Entry)
    (ll' : LoadedLayout)
    (h1 : "blobs/".data.isPrefixOf e.name ∧ e.etype = EntryType.reg)
    (hadd : addBlob ll e.name e.content = .ok ll') :
    populateFromTar ll (e :: rest) = populateFromTar ll' rest := by
  rw [populateFromTar]
  rw [if_pos h1, hadd]

theorem populate_index (ll : LoadedLayout) (e : Entry) (rest : List Entry)
    (i : OCIIndex)
    (h1 : ¬("blobs/".data.isPrefixOf e.name ∧ e.etype = EntryType.reg))
    (h2 : e.name = "index.json".data) (hc : e.content = .indexDoc i) :
    populateFromTar ll (e :: rest) =
      populateFromTar { ll with index := some i } rest := by
  rw [populateFromTar]
  rw [if_neg h1, if_pos h2, hc]

theorem populate_layout (ll : LoadedLayout) (e : Entry) (rest : List Entry)
    (lay : Layout)
    (h1 : ¬("blobs/".data.isPrefixOf e.name ∧ e.etype = EntryType.reg))
    (h2 : e.name ≠ "index.json".data) (h3 : e.name = ociLayoutFileName)
    (hc : e.content = .layoutDoc lay) :
    populateFromTar ll (e :: rest) =
      populateFromTar { ll with layout := some lay } rest := by
  rw [populateFromTar]
  rw [if_neg h1, if_neg h2, if_pos h3, hc]

/-- `addBlob` accepts a blob stored at its own digest path and records it
under that digest. -/
theorem addBlob_written (ll : LoadedLayout) (fd : FileData) :
    addBlob ll (joinSlash (blobSegs (sha256Hex (encodeFD fd)))) fd =
      .ok { ll with blobs := (digestFromBytes (encodeFD fd), fd) :: ll.blobs } := by
  have hpb := parse_blob_path "sha256".data (sha256Hex (encodeFD fd)) (by decide)
    (plainSeg_sha256Hex _)
  unfold addBlob
  rw [show joinSlash (blobSegs (sha256Hex (encodeFD fd))) =
    joinSlash ["blobs".data, "sha256".data, sha256Hex (encodeFD fd)] from rfl]
  rw [hpb.2, hpb.1]
  rw [if_neg (not_not_intro (show digestValid (Digest.mk ("sha256".data)
    (sha256Hex (encodeFD fd))) from digestValid_fromBytes (encodeFD fd)))]
  rw [if_pos (show algHex "sha256".data (encodeFD fd) =
    some (sha256Hex (encodeFD fd)) from rfl)]
  rfl

/-- The populate loop over the writer's layer-blob entries stores each blob
under its digest (most recent first). -/
theorem populate_layer_blobs (ls : List ImgLayer) : ∀ (ll : LoadedLayout)
    (rest : List Entry),
    populateFromTar ll (ls.map blobEntryOf ++ rest) =
      populateFromTar { ll with blobs := (ls.reverse.map (fun l =>
        (digestFromBytes l.blob, FileData.raw l.blob))) ++ ll.blobs } rest := by
  induction ls with
  | nil => intro ll rest; rfl
  | cons l ls ih =>
    intro ll rest
    rw [List.map_cons, List.cons_append,
      populate_blob ll (blobEntryOf l) _ _
        ⟨by rw [blobEntryOf_name]; exact blobs_isPrefixOf _, rfl⟩
        (addBlob_written ll (.raw l.blob)),
      ih]
    congr 1
    simp [List.reverse_cons, List.map_append, List.append_assoc, encodeFD]

/-! ### The artifacts `WriteImage` constructs for an image (derived in the
claim C1 proof from the `Builder.add` computation lemmas) -/

/-- The marshalled config blob bytes (write.go line 44). -/
def configBytes (img : Image) : List Nat := encodeFD (.configDoc img.config)

/-- The config descriptor built by `addJSONBlob` (write.go lines 44-47). -/
def writtenConfigDesc (img : Image) : Descriptor where
  mediaType := mtImageConfig
  digest := digestFromBytes (configBytes img)
  size := (configBytes img).length

/-- The manifest document assembled by the writer (write.go lines 49-55). -/
def writtenManifest (img : Image) : Manifest where
  schemaVersion := 2
  config := writtenConfigDesc img
  layers := img.layers.map ImgLayer.descriptor
  annotations := img.annotations

/-- The marshalled manifest blob bytes. -/
def manifestBytes (img : Image) : List Nat :=
  encodeFD (.manifestDoc (writtenManifest img))

/-- The manifest descriptor built by `addJSONBlob`. -/
def writtenManifestDesc (img : Image) : Descriptor where
  mediaType := mtImageManifest
  digest := digestFromBytes (manifestBytes img)
  size := (manifestBytes img).length

/-- The index document written to "index.json" (write.go lines 57-60), whose
sole manifest descriptor carries the image platform. -/
def writtenIndex (img : Image) : OCIIndex where
  schemaVersion := 2
  manifests := [{ writtenManifestDesc img with platform := some img.platform }]

/-- The tar entry of the config blob. -/
def cfgEntry (img : Image) (t : Nat) : Entry where
  segs := blobSegs (sha256Hex (configBytes img))
  etype := .reg
  mode := 0o644
  modTime := t
  size := (configBytes img).length
  content := .configDoc img.config

/-- The tar entry of the manifest blob. -/
def manEntry (img : Image) (t : Nat) : Entry where
  segs := blobSegs (sha256Hex (manifestBytes img))
  etype := .reg
  mode := 0o644
  modTime := t
  size := (manifestBytes img).length
  content := .manifestDoc (writtenManifest img)

/-- The "index.json" tar entry. -/
def idxEntry (img : Image) (t : Nat) : Entry where
  segs := ["index.json".data]
  etype := .reg
  mode := 0o644
  modTime := t
  size := (encodeFD (.indexDoc (writtenIndex img))).length
  content := .indexDoc (writtenIndex img)

/-- The "oci-layout" tar entry. -/
def layEntry (t : Nat) : Entry where
  segs := [ociLayoutFileName]
  etype := .reg
  mode := 0o644
  modTime := t
  size := (encodeFD (.layoutDoc { version := ociLayoutVersion })).length
  content := .layoutDoc { version := ociLayoutVersion }

/-- The full entry stream a successful `WriteImage` emits. -/
def writtenArchive (img : Image) (t : Nat) : List Entry :=
  dirEntry ["blobs".data] t :: dirEntry ["blobs".data, "sha256".data] t ::
    (img.layers.map blobEntryOf ++
      [cfgEntry img t, manEntry img t, idxEntry img t, layEntry t])

theorem dirEntry_etype (p : List Str) (t : Nat) :
    (dirEntry p t).etype = EntryType.dir := rfl

theorem cfgEntry_name (img : Image) (t : Nat) :
    (cfgEntry img t).name = joinSlash (blobSegs (sha256Hex (configBytes img))) := rfl

theorem manEntry_name (img : Image) (t : Nat) :
    (manEntry img t).name = joinSlash (blobSegs (sha256Hex (manifestBytes img))) := rfl

theorem idxEntry_name (img : Image) (t : Nat) :
    (idxEntry img t).name = "index.json".data := by
  show joinSlash [_] = _
  rw [joinSlash_single]

theorem layEntry_name (t : Nat) : (layEntry t).name = ociLayoutFileName := by
  show joinSlash [_] = _
  rw [joinSlash_single]

theorem digestFromBytes_ne {b₁ b₂ : List Nat} (h : sha256Hex b₁ ≠ sha256Hex b₂) :
    digestFromBytes b₁ ≠ digestFromBytes b₂ := by
  intro hc
  rw [digestFromBytes, digestFromBytes] at hc
  injection hc with h1 h2
  exact h h2

theorem lookupBlob_cons (d : Digest) (c : FileData)
    (rest : List (Digest × FileData)) (q : Digest) :
    lookupBlob ((d, c) :: rest) q = if d = q then some c else lookupBlob rest q := by
  simp only [lookupBlob]

/-- Looking a layer digest up in the blob map assembled from a run of layer
blobs with pairwise-distinct hashes. -/
theorem lookupBlob_layers (ls : List ImgLayer) (l : ImgLayer) (hmem : l ∈ ls)
    (hnd : (ls.map (fun l' => sha256Hex l'.blob)).Nodup) :
    lookupBlob (ls.map (fun l' => (digestFromBytes l'.blob, FileData.raw l'.blob)))
      (digestFromBytes l.blob) = some (.raw l.blob) := by
  induction ls with
  | nil => cases hmem
  | cons a rest ih =>
    rw [List.map_cons, lookupBlob_cons]
    rw [List.map_cons, List.nodup_cons] at hnd
    rcases List.mem_cons.mp hmem with rfl | hmem'
    · rw [if_pos rfl]
    · have hne : sha256Hex a.blob ≠ sha256Hex l.blob := by
        intro hcon
        apply hnd.1
        rw [hcon]
        exact List.mem_map.mpr ⟨l, hmem', rfl⟩
      rw [if_neg (digestFromBytes_ne hne)]
      exact ih hmem' hnd.2

/-- The reader's layer loop over descriptor/diff-ID pairs taken from the
layers themselves rebuilds exactly those layers. -/
theorem buildLayers_map (ll : LoadedLayout) (ls : List ImgLayer)
    (h : ∀ l ∈ ls, lookupBlob ll.blobs l.descriptor.digest = some (.raw l.blob)) :
    buildLayers ll (ls.map (fun l => (l.descriptor, l.diffID))) = .ok ls := by
  induction ls with
  | nil => rfl
  | cons a rest ih =>
    rw [List.map_cons, buildLayers, h a (List.mem_cons_self _ _),
      ih (fun l hl => h l (List.mem_cons_of_mem _ hl))]
    rfl

/-- The `loadedLayout` state the reader reaches after consuming the written
archive: layout and index decoded, every blob stored under its digest (most
recently stored first). -/
def writtenLayout (img : Image) : LoadedLayout where
  layout := some { version := ociLayoutVersion }
  index := some (writtenIndex img)
  blobs :=
    (digestFromBytes (manifestBytes img), .manifestDoc (writtenManifest img)) ::
    (digestFromBytes (configBytes img), .configDoc img.config) ::
    img.layers.reverse.map (fun l => (digestFromBytes l.blob, FileData.raw l.blob))

/-- Loading the entry stream `WriteImage` emits recovers the original image,
given the image invariant, layer descriptors matching the blobs, and
collision-free blob hashes (all of which hold on any archive `WriteImage`
actually produced). -/
theorem load_writtenArchive (img : Image) (t : Nat)
    (hinv : img.config.diffIDs = img.layers.map ImgLayer.diffID)
    (hblob : ∀ l ∈ img.layers, l.descriptor.digest = digestFromBytes l.blob)
    (hnd : (img.layers.map (fun l => sha256Hex l.blob)).Nodup)
    (hc : ∀ l ∈ img.layers, sha256Hex (configBytes img) ≠ sha256Hex l.blob)
    (hm : ∀ l ∈ img.layers, sha256Hex (manifestBytes img) ≠ sha256Hex l.blob)
    (hmc : sha256Hex (manifestBytes img) ≠ sha256Hex (configBytes img)) :
    LoadArchive (writtenArchive img t) = .ok img := by
  have hpop : populateFromTar {} (writtenArchive img t) = .ok (writtenLayout img) := by
    unfold writtenArchive
    rw [populate_skip _ (dirEntry ["blobs".data] t) _
        (by intro hcon; rw [dirEntry_etype] at hcon; cases hcon.2)
        (by rw [dirEntry_name]; decide)
        (by rw [dirEntry_name]; decide),
      populate_skip _ (dirEntry ["blobs".data, "sha256".data] t) _
        (by intro hcon; rw [dirEntry_etype] at hcon; cases hcon.2)
        (by rw [dirEntry_name]; decide)
        (by rw [dirEntry_name]; decide),
      populate_layer_blobs,
      populate_blob _ (cfgEntry img t) _ _
        ⟨by rw [cfgEntry_name]; exact blobs_isPrefixOf _, rfl⟩
        (addBlob_written _ (.configDoc img.config)),
      populate_blob _ (manEntry img t) _ _
        ⟨by rw [manEntry_name]; exact blobs_isPrefixOf _, rfl⟩
        (addBlob_written _ (.manifestDoc (writtenManifest img))),
      populate_index _ (idxEntry img t) _ (writtenIndex img)
        (by intro hcon; rw [idxEntry_name] at hcon; exact absurd hcon.1 (by decide))
        (idxEntry_name img t) rfl,
      populate_layout _ (layEntry t) _ { version := ociLayoutVersion }
        (by intro hcon; rw [layEntry_name] at hcon; exact absurd hcon.1 (by decide))
        (by rw [layEntry_name]; decide) (layEntry_name t) rfl,
      populateFromTar]
    unfold writtenLayout
    simp [configBytes, manifestBytes]
  have hlk : ∀ l ∈ img.layers,
      lookupBlob (writtenLayout img).blobs l.descriptor.digest =
        some (.raw l.blob) := by
    intro l hl
    unfold writtenLayout
    rw [hblob l hl, lookupBlob_cons, if_neg (digestFromBytes_ne (hm l hl)),
      lookupBlob_cons, if_neg (digestFromBytes_ne (hc l hl))]
    exact lookupBlob_layers img.layers.reverse l (List.mem_reverse.mpr hl)
      (by rw [List.map_reverse]; exact List.nodup_reverse.mpr hnd)
  unfold LoadArchive
  rw [hpop]
  dsimp only [writtenLayout, writtenIndex, writtenManifestDesc]
  rw [if_neg (show ¬ (ociLayoutVersion = ([] : Str)) from by decide)]
  rw [if_neg (not_not_intro (rfl : mtImageManifest = mtImageManifest))]
  unfold extractManifest
  dsimp only [writtenLayout]
  rw [lookupBlob_cons, if_pos rfl]
  dsimp only [writtenManifest, writtenConfigDesc]
  rw [if_neg (not_not_intro (rfl : mtImageConfig = mtImageConfig))]
  unfold extractConfig
  rw [lookupBlob_cons, if_neg (digestFromBytes_ne hmc), lookupBlob_cons, if_pos rfl]
  dsimp only
  rw [if_neg (not_not_intro (show img.config.diffIDs.length =
    (img.layers.map ImgLayer.descriptor).length from by rw [hinv]; simp))]
  rw [hinv, List.zip_map', buildLayers_map _ img.layers (by
    intro l hl
    have := hlk l hl
    rw [writtenLayout] at this
    exact this)]

/-! ### The writer side of the round trip -/

attribute [irreducible] sha256Hex

theorem digestFromBytes_algorithm (bs : List Nat) :
    (digestFromBytes bs).algorithm = "sha256".data := rfl

theorem digestFromBytes_encoded (bs : List Nat) :
    (digestFromBytes bs).encoded = sha256Hex bs := rfl

theorem norm_blobSegs (enc : Str) (henc : plainSeg enc) :
    normalizePath (joinSlash ["blobs".data, "sha256".data, enc]) = blobSegs enc :=
  normalizePath_joinSlash _ (by simp) (by
    intro s hs
    rcases List.mem_cons.mp hs with rfl | hs
    · decide
    · rcases List.mem_cons.mp hs with rfl | hs
      · decide
      · simp at hs
        rw [hs]
        exact henc)

theorem blobSegs_not_outside (enc : Str) : ¬ outsideArchive (blobSegs enc) := by
  intro hcon
  rcases hcon with hcon | hcon
  · simp [blobSegs] at hcon
  · simp only [blobSegs, List.head?_cons, Option.some.injEq] at hcon
    exact absurd hcon (by decide)

theorem norm_indexjson : normalizePath ("index.json".data) = [("index.json".data)] := by
  decide

theorem norm_ocilayout : normalizePath ociLayoutFileName = [ociLayoutFileName] := by
  decide

/-- A key already recorded in the builder makes the first of three adds fail
with the duplicate-entry error, which the remaining adds and the close
propagate (write.go: the JSON-blob add errors surface at `Close`). -/
theorem writeTail_dup3 (b : Builder) (p₁ : Str) (f₁ : TFile) (ty : EntryType)
    (hberr : b.err = none)
    (hfound : findType b.entries (normalizePath p₁) = some ty)
    (hout : ¬ outsideArchive (normalizePath p₁))
    (p₂ p₃ : Str) (f₂ f₃ : TFile) (A : List Entry) :
    (match (((((b.add p₁ f₁).1).add p₂ f₂).1).add p₃ f₃).1.close with
     | (_, some er) => (Except.error er : Except TarError (List Entry))
     | (tb₆, none) => Except.ok tb₆.output) ≠ Except.ok A := by
  rw [add_dup b p₁ f₁ ty hberr hfound hout]
  dsimp only
  rw [add_err ({ b with err := some (TarError.addError (normalizePath p₁)
    AddCause.duplicateEntry) }) p₂ f₂ _ rfl]
  dsimp only
  rw [add_err ({ b with err := some (TarError.addError (normalizePath p₁)
    AddCause.duplicateEntry) }) p₃ f₃ _ rfl]
  dsimp only
  rw [close_err ({ b with err := some (TarError.addError (normalizePath p₁)
    AddCause.duplicateEntry) }) _ rfl]
  simp

/-- Like `writeTail_dup3`, with four adds. -/
theorem writeTail_dup4 (b : Builder) (p₁ : Str) (f₁ : TFile) (ty : EntryType)
    (hberr : b.err = none)
    (hfound : findType b.entries (normalizePath p₁) = some ty)
    (hout : ¬ outsideArchive (normalizePath p₁))
    (p₂ p₃ p₄ : Str) (f₂ f₃ f₄ : TFile) (A : List Entry) :
    (match ((((((b.add p₁ f₁).1).add p₂ f₂).1).add p₃ f₃).1.add p₄ f₄).1.close with
     | (_, some er) => (Except.error er : Except TarError (List Entry))
     | (tb₆, none) => Except.ok tb₆.output) ≠ Except.ok A := by
  rw [add_dup b p₁ f₁ ty hberr hfound hout]
  dsimp only
  rw [add_err ({ b with err := some (TarError.addError (normalizePath p₁)
    AddCause.duplicateEntry) }) p₂ f₂ _ rfl]
  dsimp only
  rw [add_err ({ b with err := some (TarError.addError (normalizePath p₁)
    AddCause.duplicateEntry) }) p₃ f₃ _ rfl]
  dsimp only
  rw [add_err ({ b with err := some (TarError.addError (normalizePath p₁)
    AddCause.duplicateEntry) }) p₄ f₄ _ rfl]
  dsimp only
  rw [close_err ({ b with err := some (TarError.addError (normalizePath p₁)
    AddCause.duplicateEntry) }) _ rfl]
  simp

theorem findType_isSome_of_mem (es : List (List Str × EntryType)) (np : List Str)
    (h : np ∈ es.map Prod.fst) : ∃ ty, findType es np = some ty := by
  cases hft : findType es np with
  | none => exact absurd h ((findType_eq_none_iff es np).mp hft)
  | some ty => exact ⟨ty, rfl⟩

theorem findType_cons_ne (k : List Str) (ty : EntryType)
    (es : List (List Str × EntryType)) (np : List Str) (h : k ≠ np) :
    findType ((k, ty) :: es) np = findType es np := by
  rw [findType_cons, if_neg h]

theorem findType_cons_eq (k : List Str) (ty : EntryType)
    (es : List (List Str × EntryType)) (np : List Str) (h : k = np) :
    findType ((k, ty) :: es) np = some ty := by
  rw [findType_cons, if_pos h]

/-- Every entry key recorded by the writer is a "blobs" directory chain or a
three-element blob path, so a fresh single-element path is never a
duplicate. -/
theorem findType_single_none (es : List (List Str × EntryType)) (s : Str)
    (hblobs : s ≠ "blobs".data)
    (hk : ∀ k ∈ es.map Prod.fst,
      k = ["blobs".data] ∨ k = ["blobs".data, "sha256".data] ∨ ∃ e, k = blobSegs e) :
    findType es [s] = none := by
  rw [findType_eq_none_iff]
  intro hmem
  rcases hk _ hmem with h | h | ⟨e, h⟩
  · exact hblobs (by simpa using h)
  · simp at h
  · exact blobSegs_ne_single e s h.symm

set_option maxHeartbeats 2000000 in
/-- Characterization of the layer loop run from a fresh builder: on success
the blob hashes are pairwise distinct and the builder holds exactly the "blobs"
directory chain plus one recorded file entry per layer (none when the image
has no layers, since the writer only synthesizes the directories at the
first blob). -/
theorem writeLayers_newBuilder (ls : List ImgLayer) (t : Nat) (tb : Builder)
    (hblob : ∀ l ∈ ls, l.descriptor.digest = digestFromBytes l.blob ∧
      l.descriptor.size = l.blob.length)
    (h : writeLayers (newBuilder t) ls = (tb, none)) :
    tb.err = none ∧ tb.defaultModTime = t ∧ tb.footerWritten = false ∧
    (ls.map (fun l => sha256Hex l.blob)).Nodup ∧
    ((ls = [] ∧ tb = newBuilder t) ∨
     ∃ l₀ rest, ls = l₀ :: rest ∧
       tb.entries = (rest.reverse.map (fun l =>
         (blobSegs (sha256Hex l.blob), EntryType.reg))) ++
         [(["blobs".data, "sha256".data], EntryType.dir),
          (["blobs".data], EntryType.dir),
          (blobSegs (sha256Hex l₀.blob), EntryType.reg)] ∧
       tb.output = dirEntry ["blobs".data] t :: dirEntry ["blobs".data, "sha256".data] t ::
         ls.map blobEntryOf) := by
  cases ls with
  | nil =>
    rw [writeLayers] at h
    simp only [Prod.mk.injEq] at h
    rw [← h.1]
    exact ⟨rfl, rfl, rfl, by simp, Or.inl ⟨rfl, rfl⟩⟩
  | cons l₀ rest =>
    have hb0 := hblob l₀ (List.mem_cons_self _ _)
    rw [writeLayers] at h
    unfold iwAddBlob at h
    rw [hb0.1, blobPath_eq] at h
    rw [digestFromBytes_algorithm, digestFromBytes_encoded] at h
    rw [add_blob3_fresh (newBuilder t) ("sha256".data) (sha256Hex l₀.blob) _ rfl
      (by decide) (plainSeg_sha256Hex _) rfl (by rw [hb0.2]; rfl) rfl rfl rfl] at h
    dsimp only at h
    obtain ⟨herr, hmt, hfw, hent, hout, habs, hnd⟩ :=
      writeLayers_go rest
        { defaultModTime := t
          output := [dirEntry ["blobs".data] t, dirEntry ["blobs".data, "sha256".data] t,
            blobEntryOf l₀]
          entries := [(["blobs".data, "sha256".data], EntryType.dir),
            (["blobs".data], EntryType.dir),
            (blobSegs (sha256Hex l₀.blob), EntryType.reg)]
          footerWritten := false
          err := none }
        tb rfl
        (by rw [findType_cons, if_pos rfl])
        (fun l hl => hblob l (List.mem_cons_of_mem _ hl)) h
    refine ⟨herr, by rw [hmt], by rw [hfw], ?_, Or.inr ⟨l₀, rest, rfl, by rw [hent],
      by rw [hout]; simp⟩⟩
    rw [List.map_cons, List.nodup_cons]
    refine ⟨?_, hnd⟩
    intro hmem
    obtain ⟨l, hl, heq⟩ := List.mem_map.mp hmem
    have hnone := (findType_eq_none_iff _ _).mp (habs l hl)
    refine hnone ?_
    simp only [List.map_cons, List.map_nil, List.mem_cons]
    right; right; left
    rw [heq]

/-- **C1**: for every image whose layer descriptors match their blob bytes
(digest and size) and whose config diff IDs are the layers' diff IDs in order
(the `image.Image` invariant maintained by `AppendLayer`), a successful
`WriteImage` followed by `LoadArchive` on the produced entry stream returns
the original image exactly: the same layers in the same order with the same
descriptors, diff IDs and blob bytes, the same config, the same platform and
the same annotations (blob accessors are modeled by their bytes, so equality
of the `blob` fields is the spec's equality up to `open_blob` identity). -/
theorem C1_write_load_roundtrip (img : Image) (t : Nat) (A : List Entry)
    (hinv : img.config.diffIDs = img.layers.map ImgLayer.diffID)
    (hblob : ∀ l ∈ img.layers, l.descriptor.digest = digestFromBytes l.blob ∧
      l.descriptor.size = l.blob.length)
    (hwrite : WriteImage img t = .ok A) :
    LoadArchive A = .ok img := by
  unfold WriteImage at hwrite
  rcases hwl : writeLayers (newBuilder t) img.layers with ⟨tb₁, oe⟩
  rw [hwl] at hwrite
  cases oe with
  | some e => simp at hwrite
  | none =>
    obtain ⟨herr, hmt, hfw, hnd, hshape⟩ :=
      writeLayers_newBuilder img.layers t tb₁ hblob hwl
    dsimp only [addJSONBlob] at hwrite
    unfold Builder.addContent at hwrite
    rw [show encodeFD (FileData.configDoc img.config) = configBytes img from rfl] at hwrite
    rw [show Descriptor.mk mtImageConfig (digestFromBytes (configBytes img))
      ((configBytes img).length) none = writtenConfigDesc img from rfl] at hwrite
    rw [show Manifest.mk 2 (writtenConfigDesc img) (img.layers.map ImgLayer.descriptor)
      img.annotations = writtenManifest img from rfl] at hwrite
    rw [show encodeFD (FileData.manifestDoc (writtenManifest img)) = manifestBytes img from
      rfl] at hwrite
    rw [show Descriptor.mk mtImageManifest (digestFromBytes (manifestBytes img))
      ((manifestBytes img).length) (some img.platform) =
      Descriptor.mk (writtenManifestDesc img).mediaType (writtenManifestDesc img).digest
        (writtenManifestDesc img).size (some img.platform) from rfl] at hwrite
    rw [show OCIIndex.mk 2 [Descriptor.mk (writtenManifestDesc img).mediaType
      (writtenManifestDesc img).digest (writtenManifestDesc img).size
      (some img.platform)] = writtenIndex img from rfl] at hwrite
    simp only [blobPath_eq, digestFromBytes_algorithm, digestFromBytes_encoded] at hwrite
    rcases hshape with ⟨hls, htb⟩ | ⟨l₀, rest, hls, hent, hout⟩
    · -- no layers: the config blob synthesizes the directory chain
      subst htb
      rw [add_blob3_fresh (newBuilder t) ("sha256".data) (sha256Hex (configBytes img)) _
        rfl (by decide) (plainSeg_sha256Hex _) rfl rfl rfl rfl rfl] at hwrite
      dsimp only [newBuilder, List.nil_append] at hwrite
      by_cases hme : sha256Hex (manifestBytes img) = sha256Hex (configBytes img)
      · exact absurd hwrite (writeTail_dup3 _ _ _ EntryType.reg rfl
          (by rw [norm_blobSegs _ (plainSeg_sha256Hex _)]
              dsimp only
              rw [findType_cons_ne _ _ _ _ (by exact fun hcon => blobSegs_ne_two _ hcon.symm),
                findType_cons_ne _ _ _ _ (by exact fun hcon => blobSegs_ne_single _ _ hcon.symm),
                findType_cons_eq _ _ _ _ (by rw [hme]; exact rfl)])
          (by rw [norm_blobSegs _ (plainSeg_sha256Hex _)]
              exact blobSegs_not_outside _) _ _ _ _ A)
      · rw [add_blob3_existing _ ("sha256".data) (sha256Hex (manifestBytes img)) _ rfl
          (by decide) (plainSeg_sha256Hex _) rfl rfl
          (by dsimp only
              rw [findType_cons_ne _ _ _ _ (by exact fun hcon => blobSegs_ne_two _ hcon.symm),
                findType_cons_ne _ _ _ _ (by exact fun hcon => blobSegs_ne_single _ _ hcon.symm),
                findType_cons_ne _ _ _ _ (by exact fun hcon => hme (blobSegs_inj hcon).symm)]
              exact rfl)
          (by dsimp only
              rw [findType_cons_eq _ _ _ _ (by rfl)])] at hwrite
        dsimp only at hwrite
        rw [add_single _ ("index.json".data) ("index.json".data) _ rfl (by decide)
          norm_indexjson rfl rfl
          (by dsimp only
              rw [findType_cons_ne _ _ _ _ (by exact fun hcon => blobSegs_ne_single _ _ hcon),
                findType_cons_ne _ _ _ _ (by decide),
                findType_cons_ne _ _ _ _ (by decide),
                findType_cons_ne _ _ _ _ (by exact fun hcon => blobSegs_ne_single _ _ hcon)]
              exact rfl)] at hwrite
        dsimp only at hwrite
        rw [add_single _ ociLayoutFileName ociLayoutFileName _ rfl (by decide)
          norm_ocilayout rfl rfl
          (by dsimp only
              rw [findType_cons_ne _ _ _ _ (by decide),
                findType_cons_ne _ _ _ _ (by exact fun hcon => blobSegs_ne_single _ _ hcon),
                findType_cons_ne _ _ _ _ (by decide),
                findType_cons_ne _ _ _ _ (by decide),
                findType_cons_ne _ _ _ _ (by exact fun hcon => blobSegs_ne_single _ _ hcon)]
              exact rfl)] at hwrite
        dsimp only at hwrite
        dsimp only [Builder.close] at hwrite
        injection hwrite with hA
        have hWA : writtenArchive img t = A := by
          rw [← hA]
          unfold writtenArchive
          rw [hls]
          simp [cfgEntry, manEntry, idxEntry, layEntry, blobSegs]
        have hload := load_writtenArchive img t hinv (fun l hl => (hblob l hl).1)
          (by rw [hls]; simp)
          (fun l hl => absurd hl (by rw [hls]; exact List.not_mem_nil l))
          (fun l hl => absurd hl (by rw [hls]; exact List.not_mem_nil l))
          hme
        rw [hWA] at hload
        exact hload
    · -- at least one layer: the directory chain is already present
      have hp2tb : findType tb₁.entries ["blobs".data, "sha256".data] =
          some EntryType.dir := by
        rw [hent, findType_append_none]
        · rw [findType_cons, if_pos rfl]
        · intro k hk
          simp only [List.map_map, List.mem_map] at hk
          obtain ⟨l, hl, rfl⟩ := hk
          exact blobSegs_ne_two _
      by_cases hcmem : sha256Hex (configBytes img) ∈
          img.layers.map (fun l => sha256Hex l.blob)
      · obtain ⟨l, hl, hlEnc⟩ := List.mem_map.mp hcmem
        have hkey : blobSegs (sha256Hex (configBytes img)) ∈
            tb₁.entries.map Prod.fst := by
          rw [hent, ← hlEnc, List.map_append]
          rw [hls] at hl
          rcases List.mem_cons.mp hl with rfl | hl'
          · exact List.mem_append_right _ (by simp)
          · refine List.mem_append_left _ ?_
            simp only [List.map_map, List.mem_map]
            exact ⟨l, List.mem_reverse.mpr hl', rfl⟩
        obtain ⟨ty, hty⟩ := findType_isSome_of_mem _ _ hkey
        exact absurd hwrite (writeTail_dup4 tb₁ _ _ ty herr
          (by rw [norm_blobSegs _ (plainSeg_sha256Hex _)]; exact hty)
          (by rw [norm_blobSegs _ (plainSeg_sha256Hex _)]
              exact blobSegs_not_outside _) _ _ _ _ _ _ A)
      · have hcfnone : findType tb₁.entries
            (blobSegs (sha256Hex (configBytes img))) = none := by
          rw [findType_eq_none_iff]
          intro hmem
          rw [hent, List.map_append] at hmem
          rcases List.mem_append.mp hmem with hmem | hmem
          · simp only [List.map_map, List.mem_map] at hmem
            obtain ⟨l, hl, heq⟩ := hmem
            refine hcmem (List.mem_map.mpr ⟨l, ?_, blobSegs_inj heq⟩)
            rw [hls]
            exact List.mem_cons_of_mem _ (List.mem_reverse.mp hl)
          · simp only [List.map_cons, List.map_nil, List.mem_cons,
              List.not_mem_nil, or_false] at hmem
            rcases hmem with h | h | h
            · exact blobSegs_ne_two _ h
            · exact blobSegs_ne_single _ _ h
            · refine hcmem (List.mem_map.mpr ⟨l₀, ?_, (blobSegs_inj h).symm⟩)
              rw [hls]
              exact List.mem_cons_self _ _
        rw [add_blob3_existing tb₁ ("sha256".data) (sha256Hex (configBytes img)) _ herr
          (by decide) (plainSeg_sha256Hex _) rfl rfl hcfnone hp2tb] at hwrite
        dsimp only at hwrite
        by_cases hmbad : sha256Hex (manifestBytes img) = sha256Hex (configBytes img) ∨
          sha256Hex (manifestBytes img) ∈ img.layers.map (fun l => sha256Hex l.blob)
        · have hkey : blobSegs (sha256Hex (manifestBytes img)) ∈
              ((blobSegs (sha256Hex (configBytes img)), EntryType.reg) ::
                tb₁.entries).map Prod.fst := by
            rw [List.map_cons]
            rcases hmbad with hmeq | hmmem
            · rw [List.mem_cons]
              exact Or.inl (by rw [hmeq])
            · obtain ⟨l, hl, hlEnc⟩ := List.mem_map.mp hmmem
              refine List.mem_cons_of_mem _ ?_
              rw [hent, ← hlEnc, List.map_append]
              rw [hls] at hl
              rcases List.mem_cons.mp hl with rfl | hl'
              · exact List.mem_append_right _ (by simp)
              · refine List.mem_append_left _ ?_
                simp only [List.map_map, List.mem_map]
                exact ⟨l, List.mem_reverse.mpr hl', rfl⟩
          obtain ⟨ty, hty⟩ := findType_isSome_of_mem _ _ hkey
          exact absurd hwrite (writeTail_dup3 _ _ _ ty (by dsimp only; exact herr)
            (by rw [norm_blobSegs _ (plainSeg_sha256Hex _)]
                dsimp only
                exact hty)
            (by rw [norm_blobSegs _ (plainSeg_sha256Hex _)]
                exact blobSegs_not_outside _) _ _ _ _ A)
        · push_neg at hmbad
          obtain ⟨hme, hmmem⟩ := hmbad
          have hmfnone : findType tb₁.entries
              (blobSegs (sha256Hex (manifestBytes img))) = none := by
            rw [findType_eq_none_iff]
            intro hmem
            rw [hent, List.map_append] at hmem
            rcases List.mem_append.mp hmem with hmem | hmem
            · simp only [List.map_map, List.mem_map] at hmem
              obtain ⟨l, hl, heq⟩ := hmem
              refine hmmem (List.mem_map.mpr ⟨l, ?_, blobSegs_inj heq⟩)
              rw [hls]
              exact List.mem_cons_of_mem _ (List.mem_reverse.mp hl)
            · simp only [List.map_cons, List.map_nil, List.mem_cons,
                List.not_mem_nil, or_false] at hmem
              rcases hmem with h | h | h
              · exact blobSegs_ne_two _ h
              · exact blobSegs_ne_single _ _ h
              · refine hmmem (List.mem_map.mpr ⟨l₀, ?_, (blobSegs_inj h).symm⟩)
                rw [hls]
                exact List.mem_cons_self _ _
          have hkeys : ∀ k ∈ tb₁.entries.map Prod.fst,
              k = ["blobs".data] ∨ k = ["blobs".data, "sha256".data] ∨
              ∃ e, k = blobSegs e := by
            intro k hk
            rw [hent, List.map_append] at hk
            rcases List.mem_append.mp hk with hk | hk
            · simp only [List.map_map, List.mem_map] at hk
              obtain ⟨l, hl, rfl⟩ := hk
              exact Or.inr (Or.inr ⟨sha256Hex l.blob, rfl⟩)
            · simp only [List.map_cons, List.map_nil, List.mem_cons,
                List.not_mem_nil, or_false] at hk
              rcases hk with rfl | rfl | rfl
              · exact Or.inr (Or.inl rfl)
              · exact Or.inl rfl
              · exact Or.inr (Or.inr ⟨sha256Hex l₀.blob, rfl⟩)
          rw [add_blob3_existing _ ("sha256".data) (sha256Hex (manifestBytes img)) _
            (by dsimp only; exact herr)
            (by decide) (plainSeg_sha256Hex _) rfl rfl
            (by dsimp only
                rw [findType_cons_ne _ _ _ _ (by exact fun hcon => hme ((blobSegs_inj hcon).symm))]
                exact hmfnone)
            (by dsimp only
                rw [findType_cons_ne _ _ _ _ (by exact fun hcon => blobSegs_ne_two _ hcon)]
                exact hp2tb)] at hwrite
          dsimp only at hwrite
          rw [add_single _ ("index.json".data) ("index.json".data) _
            (by dsimp only; exact herr) (by decide)
            norm_indexjson rfl rfl
            (by dsimp only
                rw [findType_cons_ne _ _ _ _ (by exact fun hcon => blobSegs_ne_single _ _ hcon),
                  findType_cons_ne _ _ _ _ (by exact fun hcon => blobSegs_ne_single _ _ hcon)]
                exact findType_single_none _ _ (by decide) hkeys)] at hwrite
          dsimp only at hwrite
          rw [add_single _ ociLayoutFileName ociLayoutFileName _
            (by dsimp only; exact herr) (by decide)
            norm_ocilayout rfl rfl
            (by dsimp only
                rw [findType_cons_ne _ _ _ _ (by decide),
                  findType_cons_ne _ _ _ _ (by exact fun hcon => blobSegs_ne_single _ _ hcon),
                  findType_cons_ne _ _ _ _ (by exact fun hcon => blobSegs_ne_single _ _ hcon)]
                exact findType_single_none _ _ (by decide) hkeys)] at hwrite
          dsimp only at hwrite
          rw [herr] at hwrite
          dsimp only [Builder.close] at hwrite
          injection hwrite with hA
          have hWA : writtenArchive img t = A := by
            rw [← hA, hout, hmt]
            unfold writtenArchive
            simp [cfgEntry, manEntry, idxEntry, layEntry, blobSegs]
          have hload := load_writtenArchive img t hinv (fun l hl => (hblob l hl).1) hnd
            (fun l hl heq => hcmem (List.mem_map.mpr ⟨l, hl, heq.symm⟩))
            (fun l hl heq => hmmem (List.mem_map.mpr ⟨l, hl, heq.symm⟩))
            hme
          rw [hWA] at hload
          exact hload

/-- A concrete image for exercising the round trip: no layers, default
config, a linux/amd64 platform and one annotation. -/
def rtImage : Image where
  layers := []
  config := {}
  platform := { os := "linux".data, architecture := "amd64".data }
  annotations := [("k".data, "v".data)]

/-- The entry stream `WriteImage` produces for `rtImage` at modification
time 0. -/
def rtArchive : List Entry :=
  match WriteImage rtImage 0 with
  | .ok a => a
  | .error _ => []

set_option maxRecDepth 4000 in
/-- Witness for C1: writing `rtImage` succeeds and loading the written
archive returns `rtImage`. -/
theorem C1_write_load_roundtrip_witness :
    LoadArchive rtArchive = Except.ok rtImage :=
  C1_write_load_roundtrip rtImage 0 rtArchive rfl
    (fun l hl => nomatch hl) (by with_unfolding_all rfl)

/-! ### The image loader's root-manifest dispatch
(`src/internal/tarlayer/tarlayer.go`, the appended `image/load.go` revision
cited by the claims: `loader.initRootIndex` and
`loader.synthesizeRootIndexFromManifest`, lines 208-271) -/

/-- The supported index media types (`SupportedIndexMediaTypes`). -/
def rootIndexMediaTypes : List Str := [mtImageIndex, mtDockerManifestList]

/-- The supported manifest media types (`SupportedManifestMediaTypes`). -/
def rootManifestMediaTypes : List Str := [mtImageManifest, mtDockerManifest]

/-- The root document read by `initRootIndex`.  The Go code unmarshals the
same bytes up to three times (the mediaType/manifests peek struct, the
index view and the manifest view); the record carries every field any of
those unmarshalings reads, and `encRoot` below stands in for the document
bytes. -/
structure RootContent where
  mediaType : Str := []
  manifests : List Descriptor := []
  schemaVersion : Nat := 2
  config : Descriptor := { mediaType := [], digest := Digest.emptyD, size := 0 }
  layers : List Descriptor := []
  annotations : List (Str × Str) := []
deriving DecidableEq

/-- The deterministic byte flattening of a root document (its `json.Marshal`
image; `digest.FromBytes(content)` is `digestFromBytes (encRoot r)`). -/
def encRoot (r : RootContent) : List Nat :=
  encStr r.mediaType ++ encList encDescriptor r.manifests ++ [r.schemaVersion] ++
    encDescriptor r.config ++ encList encDescriptor r.layers ++
    encList (fun kv => encStr kv.1 ++ encStr kv.2) r.annotations

/-- Unmarshaling the root bytes into `specsv1.Index`. -/
def decodeRootIndex (r : RootContent) : OCIIndex :=
  { schemaVersion := r.schemaVersion, manifests := r.manifests }

/-- Unmarshaling the root bytes into `specsv1.Manifest`. -/
def decodeRootManifest (r : RootContent) : Manifest :=
  { schemaVersion := r.schemaVersion, config := r.config, layers := r.layers,
    annotations := r.annotations }

/-- The loader state touched by root initialization: the root index and the
manifest cache (`manifestsByDigest`; the `sync.Map` store prepends, most
recent first). -/
structure LoaderState where
  rootIndex : OCIIndex := { schemaVersion := 2, manifests := [] }
  manifestsByDigest : List (Digest × Manifest) := []
deriving DecidableEq

/-- The error of the final dispatch branch. -/
inductive InitErr
  | unsupportedManifestType (mt : Str)
deriving DecidableEq

/-- Embedding of `loader.synthesizeRootIndexFromManifest` (tarlayer.go lines
247-271): parse the bytes as a manifest, cache it under the digest of the
bytes, and set the root index to a synthesized singleton whose descriptor
carries the image-manifest media type, that digest, and the byte length. -/
def synthesizeRootIndexFromManifest (st : LoaderState) (r : RootContent) :
    LoaderState :=
  { st with
    manifestsByDigest :=
      (digestFromBytes (encRoot r), decodeRootManifest r) :: st.manifestsByDigest
    rootIndex :=
      { schemaVersion := 2,
        manifests := [{ mediaType := mtImageManifest,
                        digest := digestFromBytes (encRoot r),
                        size := (encRoot r).length }] } }

/-- Embedding of the dispatch of `loader.initRootIndex` (tarlayer.go lines
238-244): a supported index media type or a non-empty `manifests` array
selects the index view; otherwise a supported manifest media type selects
the synthesized singleton; otherwise loading fails. -/
def initRootIndex (st : LoaderState) (r : RootContent) :
    Except InitErr LoaderState :=
  if r.mediaType ∈ rootIndexMediaTypes ∨ 0 < r.manifests.length then
    .ok { st with rootIndex := decodeRootIndex r }
  else if r.mediaType ∈ rootManifestMediaTypes then
    .ok (synthesizeRootIndexFromManifest st r)
  else
    .error (.unsupportedManifestType r.mediaType)

/-- **C5**: root-manifest dispatch.  A root document whose media type is in
the supported index set or whose `manifests` array is non-empty is decoded
as the root index; otherwise a supported manifest media type synthesizes a
singleton index whose sole descriptor has the image-manifest media type,
the digest of the original root bytes and their length as size, with the
parsed manifest cached under that digest; otherwise loading fails with the
unsupported-manifest-type error. -/
theorem C5_root_manifest_dispatch (st : LoaderState) (r : RootContent) :
    ((r.mediaType ∈ rootIndexMediaTypes ∨ r.manifests ≠ []) →
      initRootIndex st r = .ok { st with rootIndex := decodeRootIndex r }) ∧
    (r.mediaType ∉ rootIndexMediaTypes → r.manifests = [] →
      r.mediaType ∈ rootManifestMediaTypes →
      initRootIndex st r = .ok
        { st with
          rootIndex :=
            { schemaVersion := 2,
              manifests := [{ mediaType := mtImageManifest,
                              digest := digestFromBytes (encRoot r),
                              size := (encRoot r).length }] }
          manifestsByDigest :=
            (digestFromBytes (encRoot r), decodeRootManifest r) ::
              st.manifestsByDigest }) ∧
    (r.mediaType ∉ rootIndexMediaTypes → r.manifests = [] →
      r.mediaType ∉ rootManifestMediaTypes →
      initRootIndex st r = .error (.unsupportedManifestType r.mediaType)) := by
  unfold initRootIndex
  refine ⟨?_, ?_, ?_⟩
  · intro h
    rw [if_pos]
    rcases h with h | h
    · exact Or.inl h
    · exact Or.inr (List.length_pos.mpr h)
  · intro hidx hman hmt
    rw [if_neg, if_pos hmt]
    · rfl
    · intro hcon
      rcases hcon with hcon | hcon
      · exact hidx hcon
      · rw [hman] at hcon
        exact absurd hcon (by decide)
  · intro hidx hman hmt
    rw [if_neg, if_neg hmt]
    intro hcon
    rcases hcon with hcon | hcon
    · exact hidx hcon
    · rw [hman] at hcon
      exact absurd hcon (by decide)

/-- A root document that is a bare image manifest (empty `manifests`
array). -/
def rootManifestDoc : RootContent where
  mediaType := mtImageManifest

/-- Witness for C5: dispatching the bare-manifest root document from a fresh
loader synthesizes the singleton index and caches the manifest. -/
theorem C5_root_manifest_dispatch_witness :
    initRootIndex {} rootManifestDoc = .ok
      { rootIndex :=
          { schemaVersion := 2,
            manifests := [{ mediaType := mtImageManifest,
                            digest := digestFromBytes (encRoot rootManifestDoc),
                            size := (encRoot rootManifestDoc).length }] }
        manifestsByDigest :=
          [(digestFromBytes (encRoot rootManifestDoc),
            decodeRootManifest rootManifestDoc)] } :=
  (C5_root_manifest_dispatch {} rootManifestDoc).2.1 (by decide) rfl (by decide)

end Zeroimage
